import Mathlib

/-!
Verification development for the bptree repository: a disk-backed B+ tree
index over fixed-size pages (node views in include/bptree, the tree engine
in b_plus_tree.h, and the buffer pool in src/buffer).

The embedding is a functional shallow embedding.  A page's key/value/child
arrays are modelled as total functions from array index to element, so that
memmove/memcpy operations become pointwise function updates; the `size`
header field selects the live prefix exactly as in the C++ layout.  The
store of pages (disk + buffer pool, seen through FetchPage/NewPage) is a
map from page id to page, and the disk manager's monotone allocator is a
counter.  All operations are translated clause by clause from the source.
-/

namespace BPTree

/-- INVALID_PAGE_ID from config.h. -/
def INVALID_PAGE_ID : Int := -1

/-! ## Flat array operations

`copyRange dst src dstStart srcStart cnt` is the result of
`memcpy(&dst[dstStart], &src[srcStart], cnt * sizeof(T))`; since the model
copies functionally it is also the result of the corresponding `memmove`
(which copies as if through a buffer when regions overlap). -/

def writeAt {A : Type} (a : Nat → A) (i : Nat) (x : A) : Nat → A :=
  fun j => if j = i then x else a j

def copyRange {A : Type} (dst src : Nat → A) (dstStart srcStart cnt : Nat) : Nat → A :=
  fun j => if dstStart ≤ j ∧ j < dstStart + cnt then src (srcStart + (j - dstStart)) else dst j

/-- The bit reinterpretation between keys and page ids sharing one memory
cell: the repo stores `page_id_t = int32_t` children directly after the
`KeyT` keys array in an internal page, and instantiates `BPlusTree<int, int>`,
so both views of a shared cell are 32-bit integers.  `toBits k` is the page
id whose bytes are the key `k`; `toKey c` reads the bytes of page id `c` as a
key.  For the repo's `int` keys both are the identity. -/
class KeyBits (K : Type) where
  toBits : K → Int
  toKey : Int → K

instance : KeyBits Int where
  toBits := fun k => k
  toKey := fun c => c

section Model

variable {K V : Type} [LinearOrder K] [Inhabited K] [Inhabited V] [KeyBits K]

/-! ## std::lower_bound / std::upper_bound

The exact libstdc++ binary-search algorithm over the index window
`[first, first+len)` of the array, with comparator `std::less` (that is,
`<` of the key order).  `lowerBound a key n` models
`std::lower_bound(a, a + n, key, comp) - a`, and `upperBound` models
`std::upper_bound`. -/

def lowerBoundAux (a : Nat → K) (key : K) : Nat → Nat → Nat → Nat
  | 0, first, _ => first
  | fuel + 1, first, len =>
    if len = 0 then first
    else
      let half := len / 2
      if a (first + half) < key then
        lowerBoundAux a key fuel (first + half + 1) (len - half - 1)
      else
        lowerBoundAux a key fuel first half

/-- The window length shrinks by at least one per iteration, so a fuel of
`size` runs the loop to completion. -/
def lowerBound (a : Nat → K) (size : Nat) (key : K) : Nat :=
  lowerBoundAux a key size 0 size

def upperBoundAux (a : Nat → K) (key : K) : Nat → Nat → Nat → Nat
  | 0, first, _ => first
  | fuel + 1, first, len =>
    if len = 0 then first
    else
      let half := len / 2
      if key < a (first + half) then
        upperBoundAux a key fuel first half
      else
        upperBoundAux a key fuel (first + half + 1) (len - half - 1)

def upperBound (a : Nat → K) (size : Nat) (key : K) : Nat :=
  upperBoundAux a key size 0 size

/-! ## Node header helpers (node.h) -/

/-- Node::Get_Min_Size: `(max_size + 1) / 2` in C++ integer division. -/
def getMinSize (maxSize : Nat) : Nat := (maxSize + 1) / 2

/-- Node::Is_Underflow: `Get_Size(page) < Get_Min_Size(max_size)`. -/
def isUnderflow (size maxSize : Nat) : Bool := size < getMinSize maxSize

/-- Node::IS_Full: `Get_Size(page) >= max_size`. -/
def isFull (size maxSize : Nat) : Bool := size ≥ maxSize

/-! ## Page layouts

A leaf page (leaf_node.h): header (`is_leaf`, `size`), `next_page_id`, then
the `keys` and `values` arrays.  An internal page (internal_node.h): header,
then `keys` and `children`.  `is_leaf` is the constructor tag; arrays are
index functions; only indices `< size` are live, the rest hold whatever was
last written there (stale bytes survive splits exactly as on a real page). -/

structure LeafPage (K V : Type) where
  next : Int
  keys : Nat → K
  values : Nat → V
  size : Nat

structure InternalPage (K : Type) where
  keys : Nat → K
  children : Nat → Int
  size : Nat

inductive Page (K V : Type) where
  | leaf : LeafPage K V → Page K V
  | internal : InternalPage K → Page K V

/-- LeafNode::Init on a zeroed frame (BufferPoolManager::NewPage resets the
frame memory before the engine calls Init): size 0, next INVALID, arrays
zero-filled (the default element). -/
def initLeaf : LeafPage K V :=
  { next := INVALID_PAGE_ID, keys := fun _ => default, values := fun _ => default, size := 0 }

/-- InternalNode::Init on a zeroed frame: size 0, arrays zero-filled
(child slots read as page id 0). -/
def initInternal : InternalPage K :=
  { keys := fun _ => default, children := fun _ => 0, size := 0 }

/-! ## Leaf node operations (leaf_node.h) -/

/-- LeafNode::Find_Key_Index: `std::lower_bound` over the live prefix. -/
def findKeyIndex (p : LeafPage K V) (key : K) : Nat :=
  lowerBound p.keys p.size key

/-- LeafNode::Get_Value: lower-bound position, then the comparator-equality
test `!comp(key, keys[idx]) && !comp(keys[idx], key)`. -/
def leafGetValue (p : LeafPage K V) (key : K) : Option V :=
  let index := findKeyIndex p key
  if index < p.size ∧ ¬ key < p.keys index ∧ ¬ p.keys index < key then
    some (p.values index)
  else
    none

/-- LeafNode::Insert: no-op when the key is already present, otherwise shift
keys and values right from the lower-bound index (memmove of `size - index`
elements), write the pair at the index, and bump the size.  There is no
capacity check. -/
def leafInsert (p : LeafPage K V) (key : K) (value : V) : LeafPage K V :=
  let index := findKeyIndex p key
  if index < p.size ∧ ¬ key < p.keys index ∧ ¬ p.keys index < key then
    p
  else
    { p with
      keys := writeAt (copyRange p.keys p.keys (index + 1) index (p.size - index)) index key
      values := writeAt (copyRange p.values p.values (index + 1) index (p.size - index)) index value
      size := p.size + 1 }

/-- LeafNode::Remove: shift left over the removed slot when present. -/
def leafRemove (p : LeafPage K V) (key : K) : LeafPage K V :=
  let index := findKeyIndex p key
  if index < p.size ∧ ¬ key < p.keys index ∧ ¬ p.keys index < key then
    { p with
      keys := copyRange p.keys p.keys index (index + 1) (p.size - index - 1)
      values := copyRange p.values p.values index (index + 1) (p.size - index - 1)
      size := p.size - 1 }
  else
    p

/-- LeafNode::Split: `split_point = source_size / 2` from the current size;
copy `keys[split_point..size)` and the matching values into the
destination's prefix; set the two sizes; return `dest_keys[0]` as the
separator.  Returns (updated source, updated destination, separator). -/
def leafSplit (src dst : LeafPage K V) : LeafPage K V × LeafPage K V × K :=
  let sourceSize := src.size
  let splitPoint := sourceSize / 2
  let movedCount := sourceSize - splitPoint
  let dstKeys := copyRange dst.keys src.keys 0 splitPoint movedCount
  let dstValues := copyRange dst.values src.values 0 splitPoint movedCount
  ({ src with size := splitPoint },
   { dst with keys := dstKeys, values := dstValues, size := movedCount },
   dstKeys 0)

/-- LeafNode::Move_Last_From (borrow from the left sibling): take the left
sibling's last pair, shift the current node right by one, put the pair at
position 0. -/
def leafMoveLastFrom (cur sib : LeafPage K V) : LeafPage K V × LeafPage K V :=
  let borrowedKey := sib.keys (sib.size - 1)
  let borrowedValue := sib.values (sib.size - 1)
  ({ cur with
     keys := writeAt (copyRange cur.keys cur.keys 1 0 cur.size) 0 borrowedKey
     values := writeAt (copyRange cur.values cur.values 1 0 cur.size) 0 borrowedValue
     size := cur.size + 1 },
   { sib with size := sib.size - 1 })

/-- LeafNode::Move_First_From (borrow from the right sibling): append the
right sibling's first pair to the current node, shift the sibling left. -/
def leafMoveFirstFrom (cur sib : LeafPage K V) : LeafPage K V × LeafPage K V :=
  ({ cur with
     keys := writeAt cur.keys cur.size (sib.keys 0)
     values := writeAt cur.values cur.size (sib.values 0)
     size := cur.size + 1 },
   { sib with
     keys := copyRange sib.keys sib.keys 0 1 (sib.size - 1)
     values := copyRange sib.values sib.values 0 1 (sib.size - 1)
     size := sib.size - 1 })

/-- LeafNode::Merge: append the sibling's live pairs after the current
node's, take over the sibling's next pointer. -/
def leafMerge (cur sib : LeafPage K V) : LeafPage K V :=
  { cur with
    keys := copyRange cur.keys sib.keys cur.size 0 sib.size
    values := copyRange cur.values sib.values cur.size 0 sib.size
    size := cur.size + sib.size
    next := sib.next }

/-! ## Internal node operations (internal_node.h) -/

/-- InternalNode::Lookup: `std::upper_bound` over the live keys, descend
into the child at that index. -/
def internalLookup (p : InternalPage K) (key : K) : Int :=
  p.children (upperBound p.keys p.size key)

/-- InternalNode::Child_At. -/
def childAt (p : InternalPage K) (index : Nat) : Int :=
  p.children index

/-- InternalNode::Insert: upper-bound insertion index, then four writes in
order — (1) `memmove` the keys right from `index` (writing key slots
`index + 1 .. size`), (2) `memmove` the children right from `index + 1`
(writing child slots `index + 2 .. size + 1`), (3) `keys[index] = key`,
(4) `children[index + 1] = child_page_id` — and bump the size.  There is no
capacity check.  The children array starts directly at the end of the keys
array (`Children_Ptr = Keys_Ptr + max_size * sizeof(KeyType)`,
internal_node.h:43-48) and keys and page ids have the same width, so key
slot `max_size + j` and child slot `j` are the same memory cell; every write
below updates both typed views of a shared cell through `KeyBits` (priority
follows the C++ write order).  In particular, inserting into a node whose
size is already `max_size` makes write (1) land on key slot `max_size`,
which clobbers `children[0]` with the bytes of the largest key. -/
def internalInsert (maxSize : Nat) (p : InternalPage K) (key : K) (childPageId : Int) :
    InternalPage K :=
  let index := upperBound p.keys p.size key
  let ks1 : Nat → K := copyRange p.keys p.keys (index + 1) index (p.size - index)
  let ch1 : Nat → Int := fun j =>
    if index + 1 ≤ maxSize + j ∧ maxSize + j ≤ p.size then KeyBits.toBits (p.keys (maxSize + j - 1))
    else p.children j
  let ch2 : Nat → Int := copyRange ch1 ch1 (index + 2) (index + 1) (p.size - index)
  let ks2 : Nat → K := fun i =>
    if maxSize + index + 2 ≤ i ∧ i ≤ maxSize + p.size + 1 then KeyBits.toKey (ch2 (i - maxSize))
    else ks1 i
  let ch3 : Nat → Int := fun j => if maxSize + j = index then KeyBits.toBits key else ch2 j
  let ks3 : Nat → K := writeAt ks2 index key
  let ch4 : Nat → Int := writeAt ch3 (index + 1) childPageId
  let ks4 : Nat → K := fun i =>
    if i = maxSize + index + 1 then KeyBits.toKey childPageId else ks3 i
  { p with keys := ks4, children := ch4, size := p.size + 1 }

/-- InternalNode::Split: `split_point = max_size / 2`; the key at the split
point is promoted (removed from both halves); keys after it
(`size - split_point - 1` of them) and children after it
(`size - split_point` of them) move to the destination's prefix.
Returns (updated source, updated destination, promoted key). -/
def internalSplit (src dst : InternalPage K) (maxSize : Nat) :
    InternalPage K × InternalPage K × K :=
  let splitPoint := maxSize / 2
  let sourceSize := src.size
  let keyToParent := src.keys splitPoint
  let movedKeysCount := sourceSize - splitPoint - 1
  let movedChildrenCount := sourceSize - splitPoint
  ({ src with size := splitPoint },
   { dst with
     keys := copyRange dst.keys src.keys 0 (splitPoint + 1) movedKeysCount
     children := copyRange dst.children src.children 0 (splitPoint + 1) movedChildrenCount
     size := movedKeysCount },
   keyToParent)

/-- InternalNode::Populate_New_Root: one key, two children. -/
def populateNewRoot (p : InternalPage K) (key : K) (leftChildId rightChildId : Int) :
    InternalPage K :=
  { p with
    size := 1
    keys := writeAt p.keys 0 key
    children := writeAt (writeAt p.children 0 leftChildId) 1 rightChildId }

/-- InternalNode::Find_Child_Index: first index `i ≤ size` with
`children[i] = child_id`; the C++ returns -1 when absent, modelled as
`none`. -/
def findChildIndex (p : InternalPage K) (childId : Int) : Option Nat :=
  (List.range (p.size + 1)).find? (fun i => p.children i = childId)

/-- InternalNode::Remove_At: remove `keys[key_index]` and
`children[key_index + 1]` by shifting left. -/
def removeAt (p : InternalPage K) (keyIndex : Nat) : InternalPage K :=
  { p with
    keys := copyRange p.keys p.keys keyIndex (keyIndex + 1) (p.size - keyIndex - 1)
    children := copyRange p.children p.children (keyIndex + 1) (keyIndex + 2)
      (p.size - keyIndex - 1)
    size := p.size - 1 }

/-- InternalNode::Set_Key_At. -/
def setKeyAt (p : InternalPage K) (index : Nat) (key : K) : InternalPage K :=
  { p with keys := writeAt p.keys index key }

/-- InternalNode::Move_Last_From (borrow from the left sibling): rotate the
parent separator down in front of the current node, move the left sibling's
last child over, rotate the left sibling's last key up into the parent.
Returns (current, sibling, parent). -/
def internalMoveLastFrom (cur sib parent : InternalPage K) (parentKeyIndex : Nat) :
    InternalPage K × InternalPage K × InternalPage K :=
  let keyFromParent := parent.keys parentKeyIndex
  let childFromSibling := sib.children sib.size
  ({ cur with
     keys := writeAt (copyRange cur.keys cur.keys 1 0 cur.size) 0 keyFromParent
     children := writeAt (copyRange cur.children cur.children 1 0 (cur.size + 1)) 0
       childFromSibling
     size := cur.size + 1 },
   { sib with size := sib.size - 1 },
   setKeyAt parent parentKeyIndex (sib.keys (sib.size - 1)))

/-- InternalNode::Move_First_From (borrow from the right sibling): rotate
the parent separator down at the end of the current node, move the right
sibling's first child over, rotate the sibling's first key up.
Returns (current, sibling, parent). -/
def internalMoveFirstFrom (cur sib parent : InternalPage K) (parentKeyIndex : Nat) :
    InternalPage K × InternalPage K × InternalPage K :=
  let keyFromParent := parent.keys parentKeyIndex
  let childFromSibling := sib.children 0
  ({ cur with
     keys := writeAt cur.keys cur.size keyFromParent
     children := writeAt cur.children (cur.size + 1) childFromSibling
     size := cur.size + 1 },
   { sib with
     keys := copyRange sib.keys sib.keys 0 1 (sib.size - 1)
     children := copyRange sib.children sib.children 0 1 sib.size
     size := sib.size - 1 },
   setKeyAt parent parentKeyIndex (sib.keys 0))

/-- InternalNode::Merge_Into, in C++ write order: (a)
`keys[current_size] = key_from_parent`, (b) `memcpy` the sibling's keys to
key slots `current_size + 1 .. current_size + sibling_size`, (c) `memcpy`
the sibling's `sibling_size + 1` children to child slots
`current_size + 1 .. current_size + sibling_size + 1`, then set the size to
`current_size + sibling_size + 1`.  There is no capacity check, and key and
child slots alias as in `internalInsert` (key slot `max_size + j` is child
slot `j`): when `current_size + sibling_size` reaches `max_size` — which
the underflow thresholds allow for odd `max_size` — the key writes run into
the children array, and the merged size exceeds the capacity.  Every write
updates both typed views of a shared cell, later writes winning.  (The
caller removes the separator from the parent.) -/
def internalMergeInto (maxSize : Nat) (cur sib parent : InternalPage K)
    (parentKeyIndex : Nat) : InternalPage K :=
  let keyFromParent := parent.keys parentKeyIndex
  let ks1 : Nat → K :=
    copyRange (writeAt cur.keys cur.size keyFromParent) sib.keys (cur.size + 1) 0 sib.size
  let ch1 : Nat → Int := fun j =>
    if cur.size ≤ maxSize + j ∧ maxSize + j ≤ cur.size + sib.size
    then KeyBits.toBits (ks1 (maxSize + j)) else cur.children j
  let ch2 : Nat → Int := copyRange ch1 sib.children (cur.size + 1) 0 (sib.size + 1)
  let ks2 : Nat → K := fun i =>
    if maxSize + cur.size + 1 ≤ i ∧ i ≤ maxSize + cur.size + sib.size + 1
    then KeyBits.toKey (sib.children (i - (maxSize + cur.size + 1))) else ks1 i
  { cur with keys := ks2, children := ch2, size := cur.size + sib.size + 1 }

/-- InternalNode::Move_First_Child. -/
def moveFirstChild (p : InternalPage K) : Int :=
  p.children 0

/-! ## Tree state

The store seen by the engine through the buffer pool: a map from page id to
page content, the disk manager's monotone allocation counter (`next_page_id_`
starts at the file's page count, 0 for a fresh file), the root page id, and
the two size limits from the constructor.  The meta page (id 0) is not a
tree node and is handled at open/close only. -/

structure TreeState (K V : Type) where
  pages : Int → Option (Page K V)
  nextPageId : Int
  root : Int
  leafMax : Nat
  internalMax : Nat

def setPage (s : TreeState K V) (id : Int) (pg : Page K V) : TreeState K V :=
  { s with pages := fun p => if p = id then some pg else s.pages p }

/-- BufferPoolManager::NewPage: allocate the next id from the disk manager
and hand out a zero-filled frame (which node views read as a non-leaf page
of size 0 until the engine initializes it). -/
def newPage (s : TreeState K V) : Int × TreeState K V :=
  (s.nextPageId,
   { s with
     pages := fun p => if p = s.nextPageId then some (Page.internal initInternal) else s.pages p
     nextPageId := s.nextPageId + 1 })

/-- BufferPoolManager::DeletePage on an unpinned resident page: drop it from
the page table (the disk manager's DeallocatePage is a no-op). -/
def delPage (s : TreeState K V) (id : Int) : TreeState K V :=
  { s with pages := fun p => if p = id then none else s.pages p }

/-- The state of a freshly-constructed tree on a new file: the disk manager
starts allocating at page id 0, the zero-filled meta page reads root id 0,
which the constructor normalizes to INVALID_PAGE_ID. -/
def newTreeState (L I : Nat) : TreeState K V :=
  { pages := fun _ => none, nextPageId := 0, root := INVALID_PAGE_ID
    leafMax := L, internalMax := I }

/-- The constructor's normalization of the root id read from the meta page
(b_plus_tree.h lines 168-175): a stored 0 means an uninitialized file. -/
def normalizeRoot (metaRoot : Int) : Int :=
  if metaRoot = 0 then INVALID_PAGE_ID else metaRoot

/-! ## Descent (BPlusTree::Get_Leaf_Page)

Returns the ancestors of the target leaf (nearest parent first — the C++
write-set holds the root-to-leaf path, searched from its end) and the leaf's
page id.  `none` models the thrown exceptions (invalid child id) and
non-termination in malformed stores; fetching a page id that was never
written is also treated as an error (the C++ buffer pool would hand back
whatever the disk read returns there). -/

def getLeafPageAux (s : TreeState K V) (key : K) :
    Nat → Int → List Int → Option (List Int × Int)
  | 0, _, _ => none
  | fuel + 1, child, revAnc =>
    if child = INVALID_PAGE_ID then none
    else
      match s.pages child with
      | none => none
      | some (Page.leaf _) => some (revAnc, child)
      | some (Page.internal n) =>
        let c := internalLookup n key
        if c = INVALID_PAGE_ID then none
        else getLeafPageAux s key fuel c (child :: revAnc)

def getLeafPage (fuel : Nat) (s : TreeState K V) (key : K) : Option (List Int × Int) :=
  getLeafPageAux s key fuel s.root []

/-! ## Point lookup (BPlusTree::Get_Value) -/

def bPlusGetValue (fuel : Nat) (s : TreeState K V) (key : K) : Option V :=
  if s.root = INVALID_PAGE_ID then none
  else
    match getLeafPage fuel s key with
    | none => none
    | some (_, leafId) =>
      match s.pages leafId with
      | some (Page.leaf lp) => leafGetValue lp key
      | _ => none

/-! ## Insert (BPlusTree::Insert, Start_New_Tree) -/

/-- BPlusTree::Start_New_Tree: allocate a root page; if the allocated id is
0 the code calls DeletePage(0) — which fails and does nothing because the
page guard still pins the frame — and allocates a second page for the root,
so the zeroed page 0 stays resident and the root id is never 0. -/
def startNewTree (s : TreeState K V) (key : K) (value : V) : TreeState K V :=
  let (id1, s1) := newPage s
  if id1 = 0 then
    let (id2, s2) := newPage s1
    let s3 := setPage s2 id2 (Page.leaf (leafInsert initLeaf key value))
    { s3 with root := id2 }
  else
    let s3 := setPage s1 id1 (Page.leaf (leafInsert initLeaf key value))
    { s3 with root := id1 }

/-- The upward split-propagation loop of BPlusTree::Insert (lines 365-412):
insert `(upKey, newChildId)` into the nearest held ancestor; stop when it is
not full, otherwise split it and continue; past the top of the path,
allocate and populate a new root. -/
def insertPropagate (s : TreeState K V) :
    List Int → Int → K → Int → TreeState K V
  | [], currentId, upKey, newChildId =>
    let (newRootId, s1) := newPage s
    let rootNode := populateNewRoot initInternal upKey currentId newChildId
    let s2 := setPage s1 newRootId (Page.internal rootNode)
    { s2 with root := newRootId }
  | parentId :: rest, _, upKey, newChildId =>
    match s.pages parentId with
    | some (Page.internal parent) =>
      let parent1 := internalInsert s.internalMax parent upKey newChildId
      let s1 := setPage s parentId (Page.internal parent1)
      if ¬ isFull parent1.size s.internalMax then s1
      else
        let (newInternalId, s2) := newPage s1
        let (parent2, newNode, upKeyNext) := internalSplit parent1 initInternal s.internalMax
        let s3 := setPage (setPage s2 parentId (Page.internal parent2)) newInternalId
          (Page.internal newNode)
        insertPropagate s3 rest parentId upKeyNext newInternalId
    | _ => s

/-- BPlusTree::Insert.  Result `none` models a thrown exception (descent
failure), which happens before any mutation; otherwise the boolean is the
C++ return value.  On a full leaf the code releases its latches and re-runs
Get_Leaf_Page pessimistically; the store is unchanged in between, so the
second descent returns the same path and the model reuses it. -/
def bPlusInsert (fuel : Nat) (s : TreeState K V) (key : K) (value : V) :
    Option (Bool × TreeState K V) :=
  if s.root = INVALID_PAGE_ID then some (true, startNewTree s key value)
  else
    match getLeafPage fuel s key with
    | none => none
    | some (revAnc, leafId) =>
      match s.pages leafId with
      | some (Page.leaf lp) =>
        if (leafGetValue lp key).isSome then some (false, s)
        else if ¬ isFull lp.size s.leafMax then
          some (true, setPage s leafId (Page.leaf (leafInsert lp key value)))
        else
          let (newLeafId, s1) := newPage s
          let (lp1, newLeaf1, upKey) := leafSplit lp initLeaf
          let newLeaf2 := { newLeaf1 with next := lp1.next }
          let lp2 := { lp1 with next := newLeafId }
          let (lp3, newLeaf3) :=
            if key < upKey then (leafInsert lp2 key value, newLeaf2)
            else (lp2, leafInsert newLeaf2 key value)
          let s2 := setPage (setPage s1 leafId (Page.leaf lp3)) newLeafId (Page.leaf newLeaf3)
          some (true, insertPropagate s2 revAnc leafId upKey newLeafId)
      | _ => none

/-! ## Remove (BPlusTree::Remove, Handle_Underflow)

`handleUnderflow` mirrors the recursive Handle_Underflow(Page*, Transaction*)
(lines 643-827).  Its arguments are the strict ancestors of the current page
(nearest first, from the write-set path) and the current page id; it returns
the updated state, the accumulated deleted-page set, and an ok flag that is
false on the thrown logic errors (parent or child index not found, no
siblings, pages of unexpected kind — the C++ would reinterpret raw bytes). -/

/-- The root branch of Handle_Underflow (b_plus_tree.h lines 651-677). -/
def handleUnderflowRoot (s : TreeState K V) (pageId : Int) (dels : List Int) :
    TreeState K V × List Int × Bool :=
  match s.pages pageId with
  | some (Page.leaf lp) =>
    if lp.size = 0 then
      ({ s with root := INVALID_PAGE_ID }, dels ++ [pageId], true)
    else (s, dels, true)
  | some (Page.internal n) =>
    if n.size = 0 then
      ({ s with root := childAt n 0 }, dels ++ [pageId], true)
    else (s, dels, true)
  | none => (s, dels, false)

/-- The non-root branch of Handle_Underflow, given the parent page id found
on the write-set path; `recur` performs the recursive Handle_Underflow call
on the parent (over the remaining ancestors). -/
def handleUnderflowCore
    (recur : TreeState K V → Int → List Int → TreeState K V × List Int × Bool)
    (parentId : Int) (s : TreeState K V) (pageId : Int) (dels : List Int) :
    TreeState K V × List Int × Bool :=
  match s.pages parentId with
  | some (Page.internal parent) =>
    match findChildIndex parent pageId with
    | none => (s, dels, false)
    | some indexInParent =>
      let leftId? : Option Int :=
        if indexInParent > 0 then some (childAt parent (indexInParent - 1)) else none
      let rightId? : Option Int :=
        if indexInParent < parent.size then some (childAt parent (indexInParent + 1))
        else none
      match s.pages pageId with
      | some (Page.leaf curL) =>
        -- try borrow from the left leaf sibling
        match
          (match leftId? with
           | some leftId =>
             match s.pages leftId with
             | some (Page.leaf sl) =>
               if sl.size > getMinSize s.leafMax then
                 let pr := leafMoveLastFrom curL sl
                 let parent1 := setKeyAt parent (indexInParent - 1) (pr.1.keys 0)
                 some (setPage (setPage (setPage s pageId (Page.leaf pr.1)) leftId
                   (Page.leaf pr.2)) parentId (Page.internal parent1))
               else none
             | _ => none
           | none => none) with
        | some sB => (sB, dels, true)
        | none =>
          -- try borrow from the right leaf sibling
          match
            (match rightId? with
             | some rightId =>
               match s.pages rightId with
               | some (Page.leaf sr) =>
                 if sr.size > getMinSize s.leafMax then
                   let pr := leafMoveFirstFrom curL sr
                   let parent1 := setKeyAt parent indexInParent (pr.2.keys 0)
                   some (setPage (setPage (setPage s pageId (Page.leaf pr.1)) rightId
                     (Page.leaf pr.2)) parentId (Page.internal parent1))
                 else none
               | _ => none
             | none => none) with
          | some sB => (sB, dels, true)
          | none =>
            -- merge: prefer the left sibling (current merges into it)
            match leftId? with
            | some leftId =>
              match s.pages leftId with
              | some (Page.leaf sl) =>
                let merged := leafMerge sl curL
                let parent2 := removeAt parent (indexInParent - 1)
                let s1 := setPage (setPage s leftId (Page.leaf merged)) parentId
                  (Page.internal parent2)
                let dels1 := dels ++ [pageId]
                if isUnderflow parent2.size s.internalMax then
                  recur s1 parentId dels1
                else (s1, dels1, true)
              | _ => (s, dels, false)
            | none =>
              match rightId? with
              | some rightId =>
                match s.pages rightId with
                | some (Page.leaf sr) =>
                  let merged := leafMerge curL sr
                  let parent2 := removeAt parent indexInParent
                  let s1 := setPage (setPage s pageId (Page.leaf merged)) parentId
                    (Page.internal parent2)
                  let dels1 := dels ++ [rightId]
                  if isUnderflow parent2.size s.internalMax then
                    recur s1 parentId dels1
                  else (s1, dels1, true)
                | _ => (s, dels, false)
              | none => (s, dels, false)
      | some (Page.internal curN) =>
        -- try borrow from the left internal sibling
        match
          (match leftId? with
           | some leftId =>
             match s.pages leftId with
             | some (Page.internal sl) =>
               if sl.size > getMinSize s.internalMax then
                 let pr := internalMoveLastFrom curN sl parent (indexInParent - 1)
                 some (setPage (setPage (setPage s pageId (Page.internal pr.1)) leftId
                   (Page.internal pr.2.1)) parentId (Page.internal pr.2.2))
               else none
             | _ => none
           | none => none) with
        | some sB => (sB, dels, true)
        | none =>
          -- try borrow from the right internal sibling
          match
            (match rightId? with
             | some rightId =>
               match s.pages rightId with
               | some (Page.internal sr) =>
                 if sr.size > getMinSize s.internalMax then
                   let pr := internalMoveFirstFrom curN sr parent indexInParent
                   some (setPage (setPage (setPage s pageId (Page.internal pr.1)) rightId
                     (Page.internal pr.2.1)) parentId (Page.internal pr.2.2))
                 else none
               | _ => none
             | none => none) with
          | some sB => (sB, dels, true)
          | none =>
            match leftId? with
            | some leftId =>
              match s.pages leftId with
              | some (Page.internal sl) =>
                let merged := internalMergeInto s.internalMax sl curN parent (indexInParent - 1)
                let parent2 := removeAt parent (indexInParent - 1)
                let s1 := setPage (setPage s leftId (Page.internal merged)) parentId
                  (Page.internal parent2)
                let dels1 := dels ++ [pageId]
                if isUnderflow parent2.size s.internalMax then
                  recur s1 parentId dels1
                else (s1, dels1, true)
              | _ => (s, dels, false)
            | none =>
              match rightId? with
              | some rightId =>
                match s.pages rightId with
                | some (Page.internal sr) =>
                  let merged := internalMergeInto s.internalMax curN sr parent indexInParent
                  let parent2 := removeAt parent indexInParent
                  let s1 := setPage (setPage s pageId (Page.internal merged)) parentId
                    (Page.internal parent2)
                  let dels1 := dels ++ [rightId]
                  if isUnderflow parent2.size s.internalMax then
                    recur s1 parentId dels1
                  else (s1, dels1, true)
                | _ => (s, dels, false)
              | none => (s, dels, false)
      | none => (s, dels, false)
  | _ => (s, dels, false)

def handleUnderflow (s : TreeState K V) (revAnc : List Int) (pageId : Int)
    (dels : List Int) : TreeState K V × List Int × Bool :=
  match revAnc with
  | [] =>
    if pageId = s.root then handleUnderflowRoot s pageId dels
    else (s, dels, false)
  | parentId :: rest =>
    if pageId = s.root then handleUnderflowRoot s pageId dels
    else handleUnderflowCore (fun s2 p2 d2 => handleUnderflow s2 rest p2 d2) parentId s pageId dels

/-- BPlusTree::Is_Safe_Page for Operation::Remove at a leaf: a safe leaf is
handled entirely in the optimistic first round, whose write-set holds only
the leaf itself (no ancestors). -/
def leafIsSafeRemove (s : TreeState K V) (leafId : Int) (lp : LeafPage K V) : Bool :=
  if leafId = s.root then lp.size > 1 else lp.size > s.leafMax / 2

/-- BPlusTree::Remove.  Returns the state and an ok flag (false when the
C++ throws: descent failure, or Handle_Underflow logic errors — in the
first-round case the write-set has no ancestors, so a repair that needs the
parent throws).  Deleted pages are dropped only after a fully successful
operation, mirroring the drain loop after Release_W_Latches. -/
def bPlusRemove (fuel : Nat) (s : TreeState K V) (key : K) : TreeState K V × Bool :=
  if s.root = INVALID_PAGE_ID then (s, true)
  else
    match getLeafPage fuel s key with
    | none => (s, false)
    | some (revAnc, leafId) =>
      match s.pages leafId with
      | some (Page.leaf lp) =>
        let revAncEff := if leafIsSafeRemove s leafId lp then [] else revAnc
        let oldSize := lp.size
        let lp1 := leafRemove lp key
        let s1 := setPage s leafId (Page.leaf lp1)
        if lp1.size < oldSize ∧ isUnderflow lp1.size s.leafMax then
          match handleUnderflow s1 revAncEff leafId [] with
          | (s2, delSet, true) => (delSet.foldl delPage s2, true)
          | (s2, _, false) => (s2, false)
        else (s1, true)
      | _ => (s, false)

/-! ## Iterator (BPlusTreeIterator) and range scan -/

/-- An iterator is a page id plus an index into the leaf; `operator==`
compares exactly these fields.  The end iterator holds INVALID_PAGE_ID and
index 0. -/
structure Iter where
  pageId : Int
  index : Nat
  deriving DecidableEq

def iterEnd : Iter := { pageId := INVALID_PAGE_ID, index := 0 }

/-- BPlusTreeIterator::operator*: read the key and value at the current
index, live or not. -/
def iterGet (s : TreeState K V) (it : Iter) : K × V :=
  match s.pages it.pageId with
  | some (Page.leaf lp) => (lp.keys it.index, lp.values it.index)
  | _ => (default, default)

/-- BPlusTreeIterator::operator++ (lines 82-121).  `tryOk` is the outcome
of the non-blocking TryRLatch on the next leaf: on failure the code keeps
the iterator where it is ("do not block, keep iterator at current end
position"). -/
def iterNext (s : TreeState K V) (it : Iter) (tryOk : Bool) : Iter :=
  if it.pageId = INVALID_PAGE_ID then it
  else
    match s.pages it.pageId with
    | some (Page.leaf lp) =>
      if it.index < lp.size - 1 then { it with index := it.index + 1 }
      else
        let nextId := lp.next
        if nextId ≠ INVALID_PAGE_ID then
          if tryOk then { pageId := nextId, index := 0 } else it
        else iterEnd
    | _ => it

/-- BPlusTree::Begin(): descend along children[0] to the leftmost leaf. -/
def beginAux (s : TreeState K V) : Nat → Int → Option Iter
  | 0, _ => none
  | fuel + 1, child =>
    if child = INVALID_PAGE_ID then none
    else
      match s.pages child with
      | none => none
      | some (Page.leaf _) => some { pageId := child, index := 0 }
      | some (Page.internal n) => beginAux s fuel (childAt n 0)

def bPlusBegin (fuel : Nat) (s : TreeState K V) : Option Iter :=
  if s.root = INVALID_PAGE_ID then some iterEnd else beginAux s fuel s.root

/-- BPlusTree::Begin(key): read-descend to the leaf for `key` and start at
its lower-bound index (which may be the leaf's size when every live key is
smaller than `key`). -/
def bPlusBeginKey (fuel : Nat) (s : TreeState K V) (key : K) : Option Iter :=
  if s.root = INVALID_PAGE_ID then some iterEnd
  else
    match getLeafPage fuel s key with
    | none => none
    | some (_, leafId) =>
      match s.pages leafId with
      | some (Page.leaf lp) => some { pageId := leafId, index := findKeyIndex lp key }
      | _ => none

/-- The loop body of BPlusTree::Range_Scan: collect `*it` while
`it != End()` and its key is below `end_key`, advancing with `++`
(uncontended, so the try-latch succeeds). -/
def rangeScanLoop (s : TreeState K V) (endKey : K) :
    Nat → Iter → List (K × V) → Option (List (K × V))
  | 0, _, _ => none
  | fuel + 1, it, acc =>
    if it = iterEnd then some acc
    else
      let kv := iterGet s it
      if kv.1 < endKey then rangeScanLoop s endKey fuel (iterNext s it true) (acc ++ [kv])
      else some acc

/-- BPlusTree::Range_Scan. -/
def rangeScan (fuel : Nat) (s : TreeState K V) (startKey endKey : K) :
    Option (List (K × V)) :=
  match bPlusBeginKey fuel s startKey with
  | none => none
  | some it => rangeScanLoop s endKey fuel it []

/-! ## Reachable tree states

Every state produced from a freshly-created tree by a sequence of completed
insert and remove calls (failed descents leave the state unchanged and are
not steps). -/

inductive Reachable (L I : Nat) : TreeState K V → Prop where
  | init : Reachable L I (newTreeState L I)
  | insert {s : TreeState K V} (fuel : Nat) (k : K) (v : V) (b : Bool) {s2 : TreeState K V} :
      Reachable L I s → bPlusInsert fuel s k v = some (b, s2) → Reachable L I s2
  | remove {s : TreeState K V} (fuel : Nat) (k : K) :
      Reachable L I s → Reachable L I (bPlusRemove fuel s k).1

/-! ## Page accessors used to state claims about concrete states -/

/-- The node header's size field of the page at `id` (0 when absent). -/
def pageSizeAt (s : TreeState K V) (id : Int) : Nat :=
  match s.pages id with
  | some (Page.leaf lp) => lp.size
  | some (Page.internal n) => n.size
  | none => 0

/-- The next_page_id field of the leaf at `id`. -/
def leafNextAt (s : TreeState K V) (id : Int) : Int :=
  match s.pages id with
  | some (Page.leaf lp) => lp.next
  | _ => INVALID_PAGE_ID

/-- Whether the page at `id` is a leaf. -/
def isLeafAt (s : TreeState K V) (id : Int) : Bool :=
  match s.pages id with
  | some (Page.leaf _) => true
  | _ => false

end Model

/-! ## A small concrete tree used for counterexamples

`exTree` is reached from a fresh tree (L = I = 4) by inserting the keys
1, 2, 5, 6, 7 with value `10 * key`.  The fifth insert splits the root
leaf: page 1 keeps keys [1, 2] (its key array still physically holds
[1, 2, 5, 6] — stale entries beyond the live size, as on a real page),
page 2 holds [5, 6, 7], and page 3 is the new internal root with
separator 5. -/

def exInsert (s : TreeState Int Int) (k : Int) : TreeState Int Int :=
  ((bPlusInsert 20 s k (k * 10)).getD (true, s)).2

def exTree : TreeState Int Int :=
  [1, 2, 5, 6, 7].foldl exInsert (newTreeState 4 4)

/-! Concrete pages used to instantiate hypothesis-bearing theorems. -/

/-- The left leaf (page 1) of exTree. -/
def exLeaf1 : LeafPage Int Int :=
  match exTree.pages 1 with
  | some (Page.leaf lp) => lp
  | _ => initLeaf

def wLeafSrc : LeafPage Int Int :=
  { next := INVALID_PAGE_ID, keys := fun i => (i : Int) + 1
    values := fun i => ((i : Int) + 1) * 10, size := 3 }

def wInternalSrc : InternalPage Int :=
  { keys := fun i => ((i : Int) + 1) * 10, children := fun i => (i : Int) + 1, size := 4 }


/-! ## Concrete reachable traces exercising the internal-node byte aliasing

With L = I = 4, thirteen ascending inserts build a height-two tree (a root
separator over two internal nodes of sizes 2 and 2).  Removing the smallest
key then merges the two leftmost leaves, drops the left internal node to
size 1, merges it with its size-2 right sibling into a size-4 — full —
internal node (1 + 2 + 1 = 4), and collapses the root onto it; the merged
full node is at rest as the new root.  Filling the leftmost leaf and
splitting it then routes InternalNode::Insert into the full root before
BPlusTree::Insert checks fullness: the key memmove writes key slot 4, which
is byte slot 0 of the children array, so after the ensuing split the left
half's first child slot holds the bytes of the old largest separator
instead of a page id. -/

def cT0 : TreeState Int Int := newTreeState 4 4
def cT1 : TreeState Int Int := exInsert cT0 10
def cT2 : TreeState Int Int := exInsert cT1 20
def cT3 : TreeState Int Int := exInsert cT2 30
def cT4 : TreeState Int Int := exInsert cT3 40
def cT5 : TreeState Int Int := exInsert cT4 50
def cT6 : TreeState Int Int := exInsert cT5 60
def cT7 : TreeState Int Int := exInsert cT6 70
def cT8 : TreeState Int Int := exInsert cT7 80
def cT9 : TreeState Int Int := exInsert cT8 90
def cT10 : TreeState Int Int := exInsert cT9 100
def cT11 : TreeState Int Int := exInsert cT10 110
def cT12 : TreeState Int Int := exInsert cT11 120
def cT13 : TreeState Int Int := exInsert cT12 130
def cT14 : TreeState Int Int := (bPlusRemove 20 cT13 10).1

/-- The pre-corruption state: the root is the merged, full (size-4)
internal page 3 with separators 50, 70, 90, 110 over five leaves, and the
leftmost leaf (page 1, keys 1, 20, 30, 40) is full. -/
def cTree : TreeState Int Int := exInsert cT14 1

/-- The state after insert(2, 222): the corrupting split.  Page 1 received
the pair (2, 222), but the left internal half (page 3) now records 110 —
the old largest separator — as its first child instead of page 1. -/
def cTree2 : TreeState Int Int := ((bPlusInsert 20 cTree 2 222).getD (true, cTree)).2

/-! The same shape with every key lowered by 110, so that the largest
separator of the full internal root is the key 0: the clobbered child slot
then holds page id 0 — the reserved meta page. -/

def dT0 : TreeState Int Int := newTreeState 4 4
def dT1 : TreeState Int Int := exInsert dT0 (-100)
def dT2 : TreeState Int Int := exInsert dT1 (-90)
def dT3 : TreeState Int Int := exInsert dT2 (-80)
def dT4 : TreeState Int Int := exInsert dT3 (-70)
def dT5 : TreeState Int Int := exInsert dT4 (-60)
def dT6 : TreeState Int Int := exInsert dT5 (-50)
def dT7 : TreeState Int Int := exInsert dT6 (-40)
def dT8 : TreeState Int Int := exInsert dT7 (-30)
def dT9 : TreeState Int Int := exInsert dT8 (-20)
def dT10 : TreeState Int Int := exInsert dT9 (-10)
def dT11 : TreeState Int Int := exInsert dT10 0
def dT12 : TreeState Int Int := exInsert dT11 10
def dT13 : TreeState Int Int := exInsert dT12 20
def dT14 : TreeState Int Int := (bPlusRemove 20 dT13 (-100)).1
def dT15 : TreeState Int Int := exInsert dT14 (-109)

/-- The state after insert(-108, 7): the root's left child (page 3) has
its live child slot 0 clobbered with page id 0. -/
def dTree : TreeState Int Int := ((bPlusInsert 20 dT15 (-108) 7).getD (true, dT15)).2

/-- The root internal page of dTree. -/
def dRoot : InternalPage Int :=
  match dTree.pages dTree.root with
  | some (Page.internal n) => n
  | _ => initInternal

/-- The internal page at id 3 of dTree (the root's first child). -/
def dNode : InternalPage Int :=
  match dTree.pages 3 with
  | some (Page.internal n) => n
  | _ => initInternal

section Model2

variable {K V : Type} [LinearOrder K] [Inhabited K] [Inhabited V]

/-! ## Invariants of reachable tree states -/

/-- Every leaf page's size is within the configured leaf capacity: the
out-of-bounds write in LeafNode::Insert never materializes. -/
def LeafSizesLE (s : TreeState K V) : Prop :=
  ∀ id lp, s.pages id = some (Page.leaf lp) → lp.size ≤ s.leafMax

/-- What a Handle_Underflow step preserves, given the state and current page
it ran on: the configuration and allocator are untouched, and leaf sizes
stay within capacity provided the current page (when a leaf) was
underflowing. -/
def HUInv (s : TreeState K V) (pageId : Int) (R : TreeState K V × List Int × Bool) : Prop :=
  R.1.leafMax = s.leafMax ∧
  R.1.internalMax = s.internalMax ∧
  R.1.nextPageId = s.nextPageId ∧
  ((∀ lp, s.pages pageId = some (Page.leaf lp) → lp.size < getMinSize s.leafMax) →
    LeafSizesLE s → LeafSizesLE R.1)

end Model2

/-! ## Buffer pool manager (buffer_pool_manager.cpp, lru_replacer.cpp)

A frame is its metadata (page id, pin count, dirty flag); page bytes and the
disk are irrelevant to the pool's bookkeeping contracts.  The LRU replacer
is its list of evictable frames, most recent first; `Victim` takes the last
element, `Pin` removes a frame if present. -/

structure BPFrame where
  pageId : Int
  pin : Nat
  dirty : Bool
  deriving DecidableEq

structure BufferPool where
  poolSize : Nat
  frames : Nat → BPFrame
  pageTable : List (Int × Nat)
  freeList : List Nat
  lru : List Nat

/-- LRUReplacer::Victim: the least-recently-used evictable frame is at the
back of the list. -/
def lruVictim (l : List Nat) : Option (Nat × List Nat) :=
  match l.getLast? with
  | none => none
  | some f => some (f, l.dropLast)

/-- LRUReplacer::Pin: remove the frame from the evictable list when present
(the list never holds duplicates). -/
def lruPin (l : List Nat) (f : Nat) : List Nat := l.erase f

/-- LRUReplacer::Unpin: push to the front (most recent) unless already
evictable. -/
def lruUnpin (l : List Nat) (f : Nat) : List Nat := if f ∈ l then l else f :: l

def updateFrame (fs : Nat → BPFrame) (i : Nat) (fr : BPFrame) : Nat → BPFrame :=
  fun j => if j = i then fr else fs j

/-- BufferPoolManager::FetchPage.  Hit: bump the pin, pin in the replacer.
Miss: take a frame from the free list, else evict the replacer's victim
(writing it back if dirty — the disk itself is not modelled — and erasing
its old mapping); read the page in, set page id, pin 1, not dirty, install
the mapping and pin in the replacer.  Returns `none` exactly on the
starvation path. -/
def fetchPage (s : BufferPool) (pageId : Int) : Option (Nat × BufferPool) :=
  match s.pageTable.lookup pageId with
  | some frameId =>
    let fr := s.frames frameId
    some (frameId,
      { s with
        frames := updateFrame s.frames frameId { fr with pin := fr.pin + 1 }
        lru := lruPin s.lru frameId })
  | none =>
    match s.freeList with
    | frameId :: restFree =>
      some (frameId,
        { s with
          frames := updateFrame s.frames frameId { pageId := pageId, pin := 1, dirty := false }
          freeList := restFree
          pageTable := (pageId, frameId) :: s.pageTable
          lru := lruPin s.lru frameId })
    | [] =>
      match lruVictim s.lru with
      | none => none
      | some (frameId, lru1) =>
        let oldId := (s.frames frameId).pageId
        some (frameId,
          { s with
            frames := updateFrame s.frames frameId { pageId := pageId, pin := 1, dirty := false }
            pageTable := (pageId, frameId) :: s.pageTable.filter (fun e => ¬ e.1 = oldId)
            lru := lruPin lru1 frameId })

/-- A small pool used to instantiate the FetchPage theorem: two frames,
both free, nothing resident. -/
def wPool : BufferPool :=
  { poolSize := 2, frames := fun _ => { pageId := INVALID_PAGE_ID, pin := 0, dirty := false }
    pageTable := [], freeList := [0, 1], lru := [] }

/-! # Lemmas and claim theorems -/

theorem writeAt_eq {A : Type} (a : Nat → A) (i : Nat) (x : A) : writeAt a i x i = x := by
  simp [writeAt]

theorem writeAt_ne {A : Type} (a : Nat → A) (i j : Nat) (x : A) (h : j ≠ i) :
    writeAt a i x j = a j := by
  simp [writeAt, h]

theorem copyRange_in {A : Type} (dst src : Nat → A) (dstStart srcStart cnt j : Nat)
    (h1 : dstStart ≤ j) (h2 : j < dstStart + cnt) :
    copyRange dst src dstStart srcStart cnt j = src (srcStart + (j - dstStart)) := by
  simp [copyRange, h1, h2]

theorem copyRange_out {A : Type} (dst src : Nat → A) (dstStart srcStart cnt j : Nat)
    (h : ¬ (dstStart ≤ j ∧ j < dstStart + cnt)) :
    copyRange dst src dstStart srcStart cnt j = dst j := by
  simp only [copyRange, if_neg h]

section ClaimTheorems

variable {K V : Type} [LinearOrder K] [Inhabited K] [Inhabited V] [KeyBits K]

/-- Claim C2, counterexample: at capacity 4 the code's Get_Min_Size yields
`(4 + 1) / 2 = 2`, while the claimed value `⌈(4 + 1) / 2⌉` (in naturals,
`(4 + 2) / 2`) is 3; a node of size 2 is accordingly not underflowing in the
code although the claim says it is. -/
theorem c2_counterexample :
    getMinSize 4 = 2 ∧ (4 + 2) / 2 = 3 ∧ isUnderflow 2 4 = false ∧ 2 < (4 + 2) / 2 := by
  decide

/-- Claim C2, amended: for every capacity max ≥ 3, Get_Min_Size(max) is
`⌊(max + 1) / 2⌋ = ⌈max / 2⌉` (written `max - max / 2`), and Is_Underflow
holds exactly when the size is strictly below that value. -/
theorem c2_min_size_floor (m : Nat) (h : 3 ≤ m) :
    getMinSize m = m - m / 2 ∧ ∀ sz, isUnderflow sz m = true ↔ sz < m - m / 2 := by
  constructor
  · show (m + 1) / 2 = m - m / 2
    omega
  · intro sz
    show decide (sz < (m + 1) / 2) = true ↔ _
    rw [decide_eq_true_iff]
    omega

/-- Witness for c2_min_size_floor at capacity 4 and size 1. -/
theorem c2_min_size_floor_witness :
    getMinSize 4 = 4 - 4 / 2 ∧ (isUnderflow 1 4 = true ↔ 1 < 4 - 4 / 2) :=
  ⟨(c2_min_size_floor 4 (by decide)).1, (c2_min_size_floor 4 (by decide)).2 1⟩

/-- Claim C5: for a leaf of current size n with 0 < n ≤ max_leaf_size,
Split chooses split_point = n / 2 from the current size, leaves the first
split_point keys and values in the source with new size split_point, copies
keys[split_point..n) and values[split_point..n) into the destination's
prefix (leaving the rest of the destination untouched) with new size
n - split_point, and returns the destination's first key (the key at the
split point) as the separator. -/
theorem c5_leaf_split (L : Nat) (src dst : LeafPage K V)
    (h1 : 0 < src.size) (h2 : src.size ≤ L) :
    (leafSplit src dst).1.size = src.size / 2 ∧
    (∀ i, (leafSplit src dst).1.keys i = src.keys i) ∧
    (∀ i, (leafSplit src dst).1.values i = src.values i) ∧
    (leafSplit src dst).2.1.size = src.size - src.size / 2 ∧
    (∀ i, i < src.size - src.size / 2 →
      (leafSplit src dst).2.1.keys i = src.keys (src.size / 2 + i) ∧
      (leafSplit src dst).2.1.values i = src.values (src.size / 2 + i)) ∧
    (∀ i, src.size - src.size / 2 ≤ i →
      (leafSplit src dst).2.1.keys i = dst.keys i ∧
      (leafSplit src dst).2.1.values i = dst.values i) ∧
    (leafSplit src dst).2.2 = (leafSplit src dst).2.1.keys 0 ∧
    (leafSplit src dst).2.2 = src.keys (src.size / 2) := by
  refine ⟨rfl, fun i => rfl, fun i => rfl, rfl, ?_, ?_, rfl, ?_⟩
  · intro i hi
    constructor
    · show copyRange dst.keys src.keys 0 (src.size / 2) (src.size - src.size / 2) i = _
      rw [copyRange_in _ _ _ _ _ _ (Nat.zero_le i) (by omega)]
      simp
    · show copyRange dst.values src.values 0 (src.size / 2) (src.size - src.size / 2) i = _
      rw [copyRange_in _ _ _ _ _ _ (Nat.zero_le i) (by omega)]
      simp
  · intro i hi
    constructor
    · show copyRange dst.keys src.keys 0 (src.size / 2) (src.size - src.size / 2) i = _
      rw [copyRange_out _ _ _ _ _ _ (by omega)]
    · show copyRange dst.values src.values 0 (src.size / 2) (src.size - src.size / 2) i = _
      rw [copyRange_out _ _ _ _ _ _ (by omega)]
  · show copyRange dst.keys src.keys 0 (src.size / 2) (src.size - src.size / 2) 0 = _
    rw [copyRange_in _ _ _ _ _ _ (Nat.zero_le 0) (by omega)]
    simp

/-- Witness for c5_leaf_split: a leaf with keys 1, 2, 3 (values 10, 20, 30)
splits at point 1; the separator is key 2. -/
theorem c5_leaf_split_witness :
    (leafSplit wLeafSrc initLeaf).1.size = 1 ∧
    (leafSplit wLeafSrc initLeaf).2.1.size = 2 ∧
    (leafSplit wLeafSrc initLeaf).2.1.keys 0 = 2 ∧
    (leafSplit wLeafSrc initLeaf).2.2 = 2 := by
  have h := c5_leaf_split 4 wLeafSrc initLeaf (by decide) (by decide)
  refine ⟨h.1, h.2.2.2.1, ?_, ?_⟩
  · have := (h.2.2.2.2.1 0 (by decide)).1
    simpa using this
  · have := h.2.2.2.2.2.2.2
    simpa using this

/-- Claim C6: for an internal page of capacity I holding n keys (with
I / 2 < n, as at every call site), Split chooses split_point = I / 2 from
the capacity, promotes keys[split_point] as the up-key and removes it from
both halves — the source keeps keys[0..split_point) with size split_point,
the destination receives keys[split_point+1..n) with size
n - split_point - 1 — and moves the n - split_point children after the
split point into the destination's prefix. -/
theorem c6_internal_split (I : Nat) (src dst : InternalPage K)
    (h1 : I / 2 < src.size) :
    (internalSplit src dst I).2.2 = src.keys (I / 2) ∧
    (internalSplit src dst I).1.size = I / 2 ∧
    (∀ i, (internalSplit src dst I).1.keys i = src.keys i) ∧
    (∀ i, (internalSplit src dst I).1.children i = src.children i) ∧
    (internalSplit src dst I).2.1.size = src.size - I / 2 - 1 ∧
    (∀ i, i < src.size - I / 2 - 1 →
      (internalSplit src dst I).2.1.keys i = src.keys (I / 2 + 1 + i)) ∧
    (∀ i, i < src.size - I / 2 →
      (internalSplit src dst I).2.1.children i = src.children (I / 2 + 1 + i)) ∧
    (∀ i, src.size - I / 2 ≤ i →
      (internalSplit src dst I).2.1.children i = dst.children i) := by
  refine ⟨rfl, rfl, fun i => rfl, fun i => rfl, rfl, ?_, ?_, ?_⟩
  · intro i hi
    show copyRange dst.keys src.keys 0 (I / 2 + 1) (src.size - (I / 2) - 1) i = _
    rw [copyRange_in _ _ _ _ _ _ (Nat.zero_le i) (by omega)]
    simp
  · intro i hi
    show copyRange dst.children src.children 0 (I / 2 + 1) (src.size - I / 2) i = _
    rw [copyRange_in _ _ _ _ _ _ (Nat.zero_le i) (by omega)]
    simp
  · intro i hi
    show copyRange dst.children src.children 0 (I / 2 + 1) (src.size - I / 2) i = _
    rw [copyRange_out _ _ _ _ _ _ (by omega)]

/-- Witness for c6_internal_split: an internal page with keys 10, 20, 30, 40
and children 1, 2, 3, 4, 5 at capacity I = 4 splits at point 2, promoting
key 30; the destination receives one key (40) and two children (4, 5). -/
theorem c6_internal_split_witness :
    (internalSplit wInternalSrc initInternal 4).2.2 = 30 ∧
    (internalSplit wInternalSrc initInternal 4).1.size = 2 ∧
    (internalSplit wInternalSrc initInternal 4).2.1.size = 1 ∧
    (internalSplit wInternalSrc initInternal 4).2.1.keys 0 = 40 ∧
    (internalSplit wInternalSrc initInternal 4).2.1.children 0 = 4 ∧
    (internalSplit wInternalSrc initInternal 4).2.1.children 1 = 5 := by
  have h := c6_internal_split 4 wInternalSrc initInternal (by decide)
  refine ⟨h.1, h.2.1, h.2.2.2.2.1, ?_, ?_, ?_⟩
  · have := h.2.2.2.2.2.1 0 (by decide)
    simpa using this
  · have := h.2.2.2.2.2.2.1 0 (by decide)
    simpa using this
  · have := h.2.2.2.2.2.2.1 1 (by decide)
    simpa using this

/-- Claim C3: if `key` is present (Get_Value finds it under the same
descent), Insert returns false and the state — every page byte and the root
page id — is exactly unchanged. -/
theorem c3_duplicate_insert (fuel : Nat) (s : TreeState K V) (k : K) (v0 : V) (v : V)
    (h : bPlusGetValue fuel s k = some v0) :
    bPlusInsert fuel s k v = some (false, s) := by
  unfold bPlusGetValue at h
  by_cases hroot : s.root = INVALID_PAGE_ID
  · simp [hroot] at h
  · rw [if_neg hroot] at h
    cases hp : getLeafPage fuel s k with
    | none => rw [hp] at h; simp at h
    | some pr =>
      obtain ⟨revAnc, leafId⟩ := pr
      rw [hp] at h
      dsimp only at h
      unfold bPlusInsert
      rw [if_neg hroot, hp]
      dsimp only
      cases hpg : s.pages leafId with
      | none => rw [hpg] at h; simp at h
      | some pg =>
        cases pg with
        | leaf lp =>
          rw [hpg] at h
          dsimp only at h ⊢
          have hsome : (leafGetValue lp k).isSome = true := by
            simp only [h, Option.isSome_some]
          rw [if_pos hsome]
        | internal n => rw [hpg] at h; simp at h

/-- Witness for c3_duplicate_insert: key 1 is present in exTree with value
10; re-inserting it with value 99 returns false and the identical state. -/
theorem c3_duplicate_insert_witness :
    bPlusInsert 20 exTree 1 99 = some (false, exTree) :=
  c3_duplicate_insert 20 exTree 1 10 99 (by decide)

/-- Claim C4, evaluation at the failing input: after inserting keys
1, 2, 5, 6, 7 (values 10·key) with L = I = 4, the tree holds exactly
5, 6, 7 in [3, 8), but Range_Scan(3, 8) returns the stale pair (5, 50)
twice: Begin(3) lands on the left leaf at index 2 = size, where the key
array still holds the pre-split entry 5, and operator* reads it before the
iterator moves on to the right leaf.  The result is not the set of live
in-range pairs. -/
theorem c4_range_scan_stale_entry :
    bPlusGetValue 20 exTree 3 = none ∧ bPlusGetValue 20 exTree 4 = none ∧
    bPlusGetValue 20 exTree 5 = some 50 ∧ bPlusGetValue 20 exTree 6 = some 60 ∧
    bPlusGetValue 20 exTree 7 = some 70 ∧
    rangeScan 20 exTree 3 8 = some [(5, 50), (5, 50), (6, 60), (7, 70)] ∧
    rangeScan 20 exTree 3 8 ≠ some [(5, 50), (6, 60), (7, 70)] := by
  decide

/-- Claim C7, counterexample: in exTree, the iterator at the last entry
(index 1 of 2) of leaf page 1, whose next_page_id is the valid page 2, does
NOT become the end iterator when the non-blocking latch on the next leaf
fails — it stays exactly where it was. -/
theorem c7_counterexample :
    isLeafAt exTree 1 = true ∧ pageSizeAt exTree 1 = 2 ∧ leafNextAt exTree 1 = 2 ∧
    (2 : Int) ≠ INVALID_PAGE_ID ∧
    iterNext exTree { pageId := 1, index := 1 } false = { pageId := 1, index := 1 } ∧
    iterNext exTree { pageId := 1, index := 1 } false ≠ iterEnd := by
  decide

/-- Claim C7, amended: when the iterator sits at the last entry of a valid
leaf whose next_page_id is valid and the non-blocking read-latch acquisition
on the next leaf fails, operator++ leaves the iterator unchanged at its
current position (it neither blocks nor becomes end). -/
theorem c7_nonblocking_advance_holds (s : TreeState K V) (it : Iter) (lp : LeafPage K V)
    (hpg : s.pages it.pageId = some (Page.leaf lp))
    (hid : it.pageId ≠ INVALID_PAGE_ID)
    (hlast : ¬ it.index < lp.size - 1)
    (hnext : lp.next ≠ INVALID_PAGE_ID) :
    iterNext s it false = it := by
  unfold iterNext
  rw [if_neg hid, hpg]
  simp [hlast, hnext]

/-- Witness for c7_nonblocking_advance_holds at exTree, leaf page 1,
index 1. -/
theorem c7_nonblocking_advance_holds_witness :
    iterNext exTree { pageId := 1, index := 1 } false = { pageId := 1, index := 1 } :=
  c7_nonblocking_advance_holds exTree { pageId := 1, index := 1 } exLeaf1
    (by rfl) (by decide) (by decide) (by decide)

theorem lruVictim_eq_none_iff (l : List Nat) : lruVictim l = none ↔ l = [] := by
  unfold lruVictim
  cases hg : l.getLast? with
  | none => simpa using List.getLast?_eq_none_iff.mp hg
  | some f =>
    simp only []
    constructor
    · intro h
      exact absurd h (by simp)
    · intro h
      rw [h] at hg
      simp at hg

/-- Claim C8: FetchPage(id) returns null exactly when the page is not
resident, the free list is empty, and the replacer has no victim; in every
other case it returns a frame holding page id whose pin count is the page's
previous pin count plus one (1 when the page was not resident). -/
theorem c8_fetch_page (s : BufferPool) (pageId : Int)
    (hcons : ∀ id f, s.pageTable.lookup id = some f → (s.frames f).pageId = id) :
    (fetchPage s pageId = none ↔
      (s.pageTable.lookup pageId = none ∧ s.freeList = [] ∧ s.lru = [])) ∧
    (∀ f s2, fetchPage s pageId = some (f, s2) →
      (s2.frames f).pageId = pageId ∧
      (s2.frames f).pin =
        (match s.pageTable.lookup pageId with
         | some fr => (s.frames fr).pin + 1
         | none => 1)) := by
  unfold fetchPage
  cases hl : s.pageTable.lookup pageId with
  | some frameId =>
    refine ⟨by simp, ?_⟩
    intro f s2 hf
    injection hf with hf
    injection hf with hf1 hf2
    subst hf1
    subst hf2
    simpa [updateFrame] using hcons pageId frameId hl
  | none =>
    cases hfree : s.freeList with
    | cons frameId restFree =>
      refine ⟨by simp, ?_⟩
      intro f s2 hf
      injection hf with hf
      injection hf with hf1 hf2
      subst hf1
      subst hf2
      simp [updateFrame]
    | nil =>
      cases hv : lruVictim s.lru with
      | none =>
        have hlru : s.lru = [] := (lruVictim_eq_none_iff s.lru).mp hv
        refine ⟨by simp [hlru], ?_⟩
        intro f s2 hf
        simp at hf
      | some pr =>
        obtain ⟨frameId, lru1⟩ := pr
        have hlru : ¬ s.lru = [] := by
          intro hnil
          rw [(lruVictim_eq_none_iff s.lru).mpr hnil] at hv
          exact absurd hv (by simp)
        refine ⟨by simp [hlru], ?_⟩
        intro f s2 hf
        injection hf with hf
        injection hf with hf1 hf2
        subst hf1
        subst hf2
        simp [updateFrame]

/-- Witness for c8_fetch_page: fetching page 5 into the fresh two-frame
pool uses frame 0 and pins it once. -/
theorem c8_fetch_page_witness :
    (((fetchPage wPool 5).getD (0, wPool)).2.frames 0).pageId = 5 ∧
    (((fetchPage wPool 5).getD (0, wPool)).2.frames 0).pin = 1 := by
  have h := (c8_fetch_page wPool 5 (by intro id f h0; simp [wPool] at h0)).2 0
    ((fetchPage wPool 5).getD (0, wPool)).2 (by rfl)
  exact ⟨h.1, h.2⟩

/-! ### Bounds for the binary searches -/

theorem upperBoundAux_le (a : Nat → K) (key : K) :
    ∀ fuel first len, upperBoundAux a key fuel first len ≤ first + len := by
  intro fuel
  induction fuel with
  | zero => intro first len; simp [upperBoundAux]
  | succ m ih =>
    intro first len
    unfold upperBoundAux
    by_cases h0 : len = 0
    · simp [h0]
    · rw [if_neg h0]
      dsimp only
      split
      · exact le_trans (ih first (len / 2)) (by omega)
      · exact le_trans (ih (first + len / 2 + 1) (len - len / 2 - 1)) (by omega)

theorem upperBound_le (a : Nat → K) (size : Nat) (key : K) :
    upperBound a size key ≤ size := by
  simpa using upperBoundAux_le a key size 0 size

theorem lowerBoundAux_le (a : Nat → K) (key : K) :
    ∀ fuel first len, lowerBoundAux a key fuel first len ≤ first + len := by
  intro fuel
  induction fuel with
  | zero => intro first len; simp [lowerBoundAux]
  | succ m ih =>
    intro first len
    unfold lowerBoundAux
    by_cases h0 : len = 0
    · simp [h0]
    · rw [if_neg h0]
      dsimp only
      split
      · exact le_trans (ih (first + len / 2 + 1) (len - len / 2 - 1)) (by omega)
      · exact le_trans (ih first (len / 2)) (by omega)

theorem lowerBound_le (a : Nat → K) (size : Nat) (key : K) :
    lowerBound a size key ≤ size := by
  simpa using lowerBoundAux_le a key size 0 size

/-! ### Size and child-positivity facts for the node operations -/

theorem leafInsert_size_le (p : LeafPage K V) (key : K) (v : V) :
    (leafInsert p key v).size ≤ p.size + 1 := by
  unfold leafInsert
  dsimp only
  split
  · omega
  · rfl

theorem leafInsert_size_of_absent (p : LeafPage K V) (key : K) (v : V)
    (h : leafGetValue p key = none) : (leafInsert p key v).size = p.size + 1 := by
  unfold leafGetValue at h
  unfold leafInsert
  dsimp only at h ⊢
  split
  · next hc => rw [if_pos hc] at h; simp at h
  · rfl

theorem leafRemove_size_le (p : LeafPage K V) (key : K) :
    (leafRemove p key).size ≤ p.size := by
  unfold leafRemove
  dsimp only
  split
  · simp only
    omega
  · rfl

theorem internalInsert_size (maxSize : Nat) (p : InternalPage K) (key : K) (c : Int) :
    (internalInsert maxSize p key c).size = p.size + 1 := rfl

/-! ### State transport lemmas -/

theorem setPage_pages (s : TreeState K V) (id : Int) (pg : Page K V) (p : Int) :
    (setPage s id pg).pages p = if p = id then some pg else s.pages p := rfl

theorem newPage_pages (s : TreeState K V) (p : Int) :
    (newPage s).2.pages p =
      if p = s.nextPageId then some (Page.internal initInternal) else s.pages p := rfl

theorem delPage_pages (s : TreeState K V) (id : Int) (p : Int) :
    (delPage s id).pages p = if p = id then none else s.pages p := rfl

theorem leafSizesLE_of_pages (s2 s : TreeState K V) (h : LeafSizesLE s)
    (hL : s2.leafMax = s.leafMax)
    (hch : ∀ p lp, s2.pages p = some (Page.leaf lp) →
      s.pages p = some (Page.leaf lp) ∨ lp.size ≤ s.leafMax) :
    LeafSizesLE s2 := by
  intro p lp hp
  rw [hL]
  rcases hch p lp hp with hsame | hok
  · exact h p lp hsame
  · exact hok

/-! ### Invariant preservation through insert propagation -/

theorem insertPropagate_inv (anc : List Int) :
    ∀ (s : TreeState K V) (cur : Int) (upKey : K) (newChild : Int),
      (insertPropagate s anc cur upKey newChild).leafMax = s.leafMax ∧
      (insertPropagate s anc cur upKey newChild).internalMax = s.internalMax ∧
      s.nextPageId ≤ (insertPropagate s anc cur upKey newChild).nextPageId ∧
      (LeafSizesLE s → LeafSizesLE (insertPropagate s anc cur upKey newChild)) := by
  induction anc with
  | nil =>
    intro s cur upKey newChild
    refine ⟨rfl, rfl, by simp [insertPropagate, newPage, setPage], ?_⟩
    intro h
    refine leafSizesLE_of_pages _ s h rfl ?_
    intro p lp hp
    by_cases hpe : p = s.nextPageId
    · simp [insertPropagate, newPage, setPage, hpe] at hp
    · simp [insertPropagate, newPage, setPage, hpe] at hp
      exact Or.inl hp
  | cons parentId rest ih =>
    intro s cur upKey newChild
    cases hp : s.pages parentId with
    | none =>
      unfold insertPropagate
      rw [hp]
      exact ⟨rfl, rfl, le_rfl, fun h => h⟩
    | some pg =>
      cases pg with
      | leaf lp =>
        unfold insertPropagate
        rw [hp]
        exact ⟨rfl, rfl, le_rfl, fun h => h⟩
      | internal parent =>
        unfold insertPropagate
        rw [hp]
        dsimp only
        by_cases hf : ¬ isFull (internalInsert s.internalMax parent upKey newChild).size
            s.internalMax
        · rw [if_pos hf]
          refine ⟨rfl, rfl, le_rfl, ?_⟩
          intro h
          refine leafSizesLE_of_pages _ s h rfl ?_
          intro p lq hq
          by_cases hpe : p = parentId
          · simp [setPage, hpe] at hq
          · simp [setPage, hpe] at hq
            exact Or.inl hq
        · rw [if_neg hf]
          set parent1 := internalInsert s.internalMax parent upKey newChild with hparent1
          set s1 := setPage s parentId (Page.internal parent1) with hs1
          set nid := (newPage s1).1 with hnid
          set sp := internalSplit parent1 initInternal s.internalMax with hsp
          set s3 := setPage (setPage (newPage s1).2 parentId (Page.internal sp.1)) nid
            (Page.internal sp.2.1) with hs3
          have hlm : s3.leafMax = s.leafMax := rfl
          have him : s3.internalMax = s.internalMax := rfl
          have hnp3 : s3.nextPageId = s.nextPageId + 1 := rfl
          obtain ⟨i1, i2, i3, i4⟩ := ih s3 parentId sp.2.2 nid
          refine ⟨by rw [i1, hlm], by rw [i2, him],
            le_trans (by rw [hnp3]; omega) i3, ?_⟩
          intro h
          refine i4 ?_
          refine leafSizesLE_of_pages s3 s h rfl ?_
          intro p lq hq
          have hq2 : s3.pages p = some (Page.leaf lq) := hq
          rw [hs3, setPage_pages] at hq2
          by_cases hpe : p = nid
          · rw [if_pos hpe] at hq2; exact absurd hq2 (by simp)
          · rw [if_neg hpe, setPage_pages] at hq2
            by_cases hpe2 : p = parentId
            · rw [if_pos hpe2] at hq2; exact absurd hq2 (by simp)
            · rw [if_neg hpe2, newPage_pages] at hq2
              have hpe3 : ¬ p = s1.nextPageId := hpe
              rw [if_neg hpe3, hs1, setPage_pages, if_neg hpe2] at hq2
              exact Or.inl hq2

/-! ### Invariant preservation through underflow handling -/

theorem findChildIndex_spec (p : InternalPage K) (c : Int) {i : Nat}
    (h : findChildIndex p c = some i) : i ≤ p.size ∧ p.children i = c := by
  unfold findChildIndex at h
  have h1 := List.find?_some h
  have h2 := List.mem_of_find?_eq_some h
  have h3 := List.mem_range.mp h2
  exact ⟨by omega, by simpa using h1⟩

/-- The root check precedes the ancestor lookup, so with the current page
at the root the result is the root branch regardless of the path. -/
theorem handleUnderflow_root_eq (anc : List Int) (s : TreeState K V) (pageId : Int)
    (dels : List Int) (hr : pageId = s.root) :
    handleUnderflow s anc pageId dels = handleUnderflowRoot s pageId dels := by
  cases anc with
  | nil => unfold handleUnderflow; rw [if_pos hr]
  | cons a t => unfold handleUnderflow; rw [if_pos hr]

/-- HUInv holds trivially when the step returns the state unchanged. -/
theorem HUInv_self (s : TreeState K V) (pageId : Int) (dels : List Int) (b : Bool) :
    HUInv s pageId (s, dels, b) :=
  ⟨rfl, rfl, rfl, fun _ h => h⟩

theorem leafSizesLE_setPage {s : TreeState K V} {pg : Page K V} (id : Int)
    (h : LeafSizesLE s) (hsz : ∀ lp, pg = Page.leaf lp → lp.size ≤ s.leafMax) :
    LeafSizesLE (setPage s id pg) := by
  intro p lq hq
  rw [setPage_pages] at hq
  by_cases hpe : p = id
  · rw [if_pos hpe] at hq
    injection hq with hq
    exact hsz lq hq
  · rw [if_neg hpe] at hq
    exact h p lq hq

theorem leafSizesLE_setPage_internal {s : TreeState K V} {n : InternalPage K} (id : Int)
    (h : LeafSizesLE s) : LeafSizesLE (setPage s id (Page.internal n)) :=
  leafSizesLE_setPage id h (fun lp hq => Page.noConfusion hq)

theorem handleUnderflowRoot_inv (s : TreeState K V) (pageId : Int) (dels : List Int) :
    HUInv s pageId (handleUnderflowRoot s pageId dels) := by
  unfold handleUnderflowRoot
  cases hp : s.pages pageId with
  | none => exact HUInv_self s pageId dels false
  | some pg =>
    cases pg with
    | leaf lp =>
      dsimp only
      by_cases h0 : lp.size = 0
      · rw [if_pos h0]
        exact ⟨rfl, rfl, rfl, fun _ h => h⟩
      · rw [if_neg h0]
        exact ⟨rfl, rfl, rfl, fun _ h => h⟩
    | internal n =>
      dsimp only
      by_cases h0 : n.size = 0
      · rw [if_pos h0]
        exact ⟨rfl, rfl, rfl, fun _ h => h⟩
      · rw [if_neg h0]
        exact ⟨rfl, rfl, rfl, fun _ h => h⟩

/-- HUInv for a borrow step: current and sibling pages rewritten, parent
key updated in place, nothing else moves. -/
theorem HUInv_borrow (s : TreeState K V) (pageId sibId parentId : Int) (dels : List Int)
    (cur1Pg sib1Pg : Page K V) (parent1 : InternalPage K)
    (hcl : (∀ lp, s.pages pageId = some (Page.leaf lp) → lp.size < getMinSize s.leafMax) →
      LeafSizesLE s → ∀ lp, cur1Pg = Page.leaf lp → lp.size ≤ s.leafMax)
    (hsl2 : LeafSizesLE s → ∀ lp, sib1Pg = Page.leaf lp → lp.size ≤ s.leafMax) :
    HUInv s pageId
      (setPage (setPage (setPage s pageId cur1Pg) sibId sib1Pg) parentId
        (Page.internal parent1), dels, true) := by
  refine ⟨rfl, rfl, rfl, ?_⟩
  intro hpre h
  refine leafSizesLE_setPage_internal _ (leafSizesLE_setPage _ (leafSizesLE_setPage _ h
    (hcl hpre h)) ?_)
  exact hsl2 h

/-- HUInv for a merge step: the merged page replaces one of the pair, the
parent loses a separator and child, and the parent may recursively
underflow. -/
theorem HUInv_step_merge (s : TreeState K V) (pageId mergeTarget parentId : Int)
    (dels1 : List Int) (mergedPg : Page K V) (parent2 : InternalPage K)
    (recur : TreeState K V → Int → List Int → TreeState K V × List Int × Bool)
    (hrec : ∀ s2 p2 d2, HUInv s2 p2 (recur s2 p2 d2))
    (hms : (∀ lp, s.pages pageId = some (Page.leaf lp) → lp.size < getMinSize s.leafMax) →
      LeafSizesLE s → ∀ lp, mergedPg = Page.leaf lp → lp.size ≤ s.leafMax) :
    HUInv s pageId
      (if isUnderflow parent2.size s.internalMax then
         recur (setPage (setPage s mergeTarget mergedPg) parentId (Page.internal parent2))
           parentId dels1
       else (setPage (setPage s mergeTarget mergedPg) parentId (Page.internal parent2),
         dels1, true)) := by
  set s1 := setPage (setPage s mergeTarget mergedPg) parentId (Page.internal parent2) with hs1
  have hs1lm : s1.leafMax = s.leafMax := rfl
  have hs1par : s1.pages parentId = some (Page.internal parent2) := by
    rw [hs1, setPage_pages, if_pos rfl]
  have hls1 : (∀ lp, s.pages pageId = some (Page.leaf lp) → lp.size < getMinSize s.leafMax) →
      LeafSizesLE s → LeafSizesLE s1 := by
    intro hpre h
    exact leafSizesLE_setPage_internal _ (leafSizesLE_setPage _ h (hms hpre h))
  by_cases hu : isUnderflow parent2.size s.internalMax = true
  · rw [if_pos hu]
    obtain ⟨r1, r2, r3, r4⟩ := hrec s1 parentId dels1
    refine ⟨by rw [r1, hs1lm], by rw [r2]; rfl, by rw [r3]; rfl, ?_⟩
    intro hpre h
    refine r4 ?_ (hls1 hpre h)
    intro lp hq
    rw [hs1par] at hq
    exact absurd hq (by simp)
  · rw [if_neg hu]
    exact ⟨rfl, rfl, rfl, hls1⟩

set_option maxHeartbeats 1000000 in
theorem handleUnderflowCore_inv
    (recur : TreeState K V → Int → List Int → TreeState K V × List Int × Bool)
    (hrec : ∀ s2 p2 d2, HUInv s2 p2 (recur s2 p2 d2))
    (parentId : Int) (s : TreeState K V) (pageId : Int)
    (dels : List Int) :
    HUInv s pageId (handleUnderflowCore recur parentId s pageId dels) := by
  have hmin : getMinSize s.leafMax = (s.leafMax + 1) / 2 := rfl
  unfold handleUnderflowCore
  cases hpp : s.pages parentId with
  | none => exact HUInv_self s pageId dels false
  | some ppg =>
    cases ppg with
    | leaf _ => exact HUInv_self s pageId dels false
    | internal parent =>
      dsimp only
      cases hfci : findChildIndex parent pageId with
      | none => exact HUInv_self s pageId dels false
      | some idx =>
        obtain ⟨hidxle, hchild⟩ := findChildIndex_spec parent pageId hfci
        dsimp only
        cases hcur : s.pages pageId with
        | none => exact HUInv_self s pageId dels false
        | some cpg =>
          cases cpg with
          | leaf curL =>
            by_cases hL : idx > 0
            · rw [if_pos hL]
              dsimp only
              cases hsl : s.pages (childAt parent (idx - 1)) with
              | some slpg =>
                cases slpg with
                | leaf sl =>
                  dsimp only
                  by_cases hgl : sl.size > getMinSize s.leafMax
                  · rw [if_pos hgl]
                    dsimp only
                    refine HUInv_borrow s pageId (childAt parent (idx - 1)) parentId dels
                      _ _ _ ?_ ?_
                    · intro hpre h lp hq
                      injection hq with hq
                      rw [← hq]
                      show curL.size + 1 ≤ s.leafMax
                      have h1 := hpre curL hcur
                      have h2 := h _ sl hsl
                      omega
                    · intro h lp hq
                      injection hq with hq
                      rw [← hq]
                      show sl.size - 1 ≤ s.leafMax
                      have h2 := h _ sl hsl
                      omega
                  · rw [if_neg hgl]
                    dsimp only
                    have hM : HUInv s pageId
                        (if isUnderflow (removeAt parent (idx - 1)).size s.internalMax then
                          recur (setPage (setPage s (childAt parent (idx - 1))
                            (Page.leaf (leafMerge sl curL))) parentId
                            (Page.internal (removeAt parent (idx - 1)))) parentId
                            (dels ++ [pageId])
                        else (setPage (setPage s (childAt parent (idx - 1))
                            (Page.leaf (leafMerge sl curL))) parentId
                            (Page.internal (removeAt parent (idx - 1))),
                          dels ++ [pageId], true)) := by
                      refine HUInv_step_merge s pageId (childAt parent (idx - 1)) parentId
                        (dels ++ [pageId]) (Page.leaf (leafMerge sl curL))
                        (removeAt parent (idx - 1)) recur hrec ?_
                      intro hpre h lp hq
                      injection hq with hq
                      rw [← hq]
                      show sl.size + curL.size ≤ s.leafMax
                      have h1 := hpre curL hcur
                      have h2 := h _ sl hsl
                      omega
                    by_cases hR : idx < parent.size
                    · rw [if_pos hR]
                      dsimp only
                      cases hsr : s.pages (childAt parent (idx + 1)) with
                      | some srpg =>
                        cases srpg with
                        | leaf sr =>
                          dsimp only
                          by_cases hgr : sr.size > getMinSize s.leafMax
                          · rw [if_pos hgr]
                            dsimp only
                            refine HUInv_borrow s pageId (childAt parent (idx + 1)) parentId
                              dels _ _ _ ?_ ?_
                            · intro hpre h lp hq
                              injection hq with hq
                              rw [← hq]
                              show curL.size + 1 ≤ s.leafMax
                              have h1 := hpre curL hcur
                              have h2 := h _ sr hsr
                              omega
                            · intro h lp hq
                              injection hq with hq
                              rw [← hq]
                              show sr.size - 1 ≤ s.leafMax
                              have h2 := h _ sr hsr
                              omega
                          · rw [if_neg hgr]
                            dsimp only
                            exact hM
                        | internal _ =>
                          dsimp only
                          exact hM
                      | none =>
                        dsimp only
                        exact hM
                    · rw [if_neg hR]
                      dsimp only
                      exact hM
                | internal _ =>
                  dsimp only
                  by_cases hR : idx < parent.size
                  · rw [if_pos hR]
                    dsimp only
                    cases hsr : s.pages (childAt parent (idx + 1)) with
                    | some srpg =>
                      cases srpg with
                      | leaf sr =>
                        dsimp only
                        by_cases hgr : sr.size > getMinSize s.leafMax
                        · rw [if_pos hgr]
                          dsimp only
                          refine HUInv_borrow s pageId (childAt parent (idx + 1)) parentId
                            dels _ _ _ ?_ ?_
                          · intro hpre h lp hq
                            injection hq with hq
                            rw [← hq]
                            show curL.size + 1 ≤ s.leafMax
                            have h1 := hpre curL hcur
                            have h2 := h _ sr hsr
                            omega
                          · intro h lp hq
                            injection hq with hq
                            rw [← hq]
                            show sr.size - 1 ≤ s.leafMax
                            have h2 := h _ sr hsr
                            omega
                        · rw [if_neg hgr]
                          dsimp only
                          exact HUInv_self s pageId dels false
                      | internal _ =>
                        dsimp only
                        exact HUInv_self s pageId dels false
                    | none =>
                      dsimp only
                      exact HUInv_self s pageId dels false
                  · rw [if_neg hR]
                    dsimp only
                    exact HUInv_self s pageId dels false
              | none =>
                dsimp only
                by_cases hR : idx < parent.size
                · rw [if_pos hR]
                  dsimp only
                  cases hsr : s.pages (childAt parent (idx + 1)) with
                  | some srpg =>
                    cases srpg with
                    | leaf sr =>
                      dsimp only
                      by_cases hgr : sr.size > getMinSize s.leafMax
                      · rw [if_pos hgr]
                        dsimp only
                        refine HUInv_borrow s pageId (childAt parent (idx + 1)) parentId
                          dels _ _ _ ?_ ?_
                        · intro hpre h lp hq
                          injection hq with hq
                          rw [← hq]
                          show curL.size + 1 ≤ s.leafMax
                          have h1 := hpre curL hcur
                          have h2 := h _ sr hsr
                          omega
                        · intro h lp hq
                          injection hq with hq
                          rw [← hq]
                          show sr.size - 1 ≤ s.leafMax
                          have h2 := h _ sr hsr
                          omega
                      · rw [if_neg hgr]
                        dsimp only
                        exact HUInv_self s pageId dels false
                    | internal _ =>
                      dsimp only
                      exact HUInv_self s pageId dels false
                  | none =>
                    dsimp only
                    exact HUInv_self s pageId dels false
                · rw [if_neg hR]
                  dsimp only
                  exact HUInv_self s pageId dels false
            · rw [if_neg hL]
              dsimp only
              by_cases hR : idx < parent.size
              · rw [if_pos hR]
                dsimp only
                cases hsr : s.pages (childAt parent (idx + 1)) with
                | some srpg =>
                  cases srpg with
                  | leaf sr =>
                    dsimp only
                    by_cases hgr : sr.size > getMinSize s.leafMax
                    · rw [if_pos hgr]
                      dsimp only
                      refine HUInv_borrow s pageId (childAt parent (idx + 1)) parentId dels
                        _ _ _ ?_ ?_
                      · intro hpre h lp hq
                        injection hq with hq
                        rw [← hq]
                        show curL.size + 1 ≤ s.leafMax
                        have h1 := hpre curL hcur
                        have h2 := h _ sr hsr
                        omega
                      · intro h lp hq
                        injection hq with hq
                        rw [← hq]
                        show sr.size - 1 ≤ s.leafMax
                        have h2 := h _ sr hsr
                        omega
                    · rw [if_neg hgr]
                      dsimp only
                      refine HUInv_step_merge s pageId pageId parentId
                        (dels ++ [childAt parent (idx + 1)]) (Page.leaf (leafMerge curL sr))
                        (removeAt parent idx) recur hrec ?_
                      intro hpre h lp hq
                      injection hq with hq
                      rw [← hq]
                      show curL.size + sr.size ≤ s.leafMax
                      have h1 := hpre curL hcur
                      have h2 := h _ sr hsr
                      omega
                  | internal _ =>
                    dsimp only
                    exact HUInv_self s pageId dels false
                | none =>
                  dsimp only
                  exact HUInv_self s pageId dels false
              · rw [if_neg hR]
                dsimp only
                exact HUInv_self s pageId dels false
          | internal curN =>
            by_cases hL : idx > 0
            · rw [if_pos hL]
              dsimp only
              cases hsl : s.pages (childAt parent (idx - 1)) with
              | some slpg =>
                cases slpg with
                | internal sl =>
                  dsimp only
                  by_cases hgl : sl.size > getMinSize s.internalMax
                  · rw [if_pos hgl]
                    dsimp only
                    refine HUInv_borrow s pageId (childAt parent (idx - 1)) parentId dels
                      _ _ _ ?_ ?_
                    · exact fun _ _ lp hq => Page.noConfusion hq
                    · exact fun _ lp hq => Page.noConfusion hq
                  · rw [if_neg hgl]
                    dsimp only
                    have hM : HUInv s pageId
                        (if isUnderflow (removeAt parent (idx - 1)).size s.internalMax then
                          recur (setPage (setPage s (childAt parent (idx - 1))
                            (Page.internal (internalMergeInto s.internalMax sl curN parent
                              (idx - 1))))
                            parentId (Page.internal (removeAt parent (idx - 1)))) parentId
                            (dels ++ [pageId])
                        else (setPage (setPage s (childAt parent (idx - 1))
                            (Page.internal (internalMergeInto s.internalMax sl curN parent
                              (idx - 1))))
                            parentId (Page.internal (removeAt parent (idx - 1))),
                          dels ++ [pageId], true)) := by
                      refine HUInv_step_merge s pageId (childAt parent (idx - 1)) parentId
                        (dels ++ [pageId])
                        (Page.internal (internalMergeInto s.internalMax sl curN parent
                          (idx - 1)))
                        (removeAt parent (idx - 1)) recur hrec ?_
                      exact fun _ _ lp hq => Page.noConfusion hq
                    by_cases hR : idx < parent.size
                    · rw [if_pos hR]
                      dsimp only
                      cases hsr : s.pages (childAt parent (idx + 1)) with
                      | some srpg =>
                        cases srpg with
                        | internal sr =>
                          dsimp only
                          by_cases hgr : sr.size > getMinSize s.internalMax
                          · rw [if_pos hgr]
                            dsimp only
                            refine HUInv_borrow s pageId (childAt parent (idx + 1)) parentId
                              dels _ _ _ ?_ ?_
                            · exact fun _ _ lp hq => Page.noConfusion hq
                            · exact fun _ lp hq => Page.noConfusion hq
                          · rw [if_neg hgr]
                            dsimp only
                            exact hM
                        | leaf _ =>
                          dsimp only
                          exact hM
                      | none =>
                        dsimp only
                        exact hM
                    · rw [if_neg hR]
                      dsimp only
                      exact hM
                | leaf _ =>
                  dsimp only
                  by_cases hR : idx < parent.size
                  · rw [if_pos hR]
                    dsimp only
                    cases hsr : s.pages (childAt parent (idx + 1)) with
                    | some srpg =>
                      cases srpg with
                      | internal sr =>
                        dsimp only
                        by_cases hgr : sr.size > getMinSize s.internalMax
                        · rw [if_pos hgr]
                          dsimp only
                          refine HUInv_borrow s pageId (childAt parent (idx + 1)) parentId
                            dels _ _ _ ?_ ?_
                          · exact fun _ _ lp hq => Page.noConfusion hq
                          · exact fun _ lp hq => Page.noConfusion hq
                        · rw [if_neg hgr]
                          dsimp only
                          exact HUInv_self s pageId dels false
                      | leaf _ =>
                        dsimp only
                        exact HUInv_self s pageId dels false
                    | none =>
                      dsimp only
                      exact HUInv_self s pageId dels false
                  · rw [if_neg hR]
                    dsimp only
                    exact HUInv_self s pageId dels false
              | none =>
                dsimp only
                by_cases hR : idx < parent.size
                · rw [if_pos hR]
                  dsimp only
                  cases hsr : s.pages (childAt parent (idx + 1)) with
                  | some srpg =>
                    cases srpg with
                    | internal sr =>
                      dsimp only
                      by_cases hgr : sr.size > getMinSize s.internalMax
                      · rw [if_pos hgr]
                        dsimp only
                        refine HUInv_borrow s pageId (childAt parent (idx + 1)) parentId
                          dels _ _ _ ?_ ?_
                        · exact fun _ _ lp hq => Page.noConfusion hq
                        · exact fun _ lp hq => Page.noConfusion hq
                      · rw [if_neg hgr]
                        dsimp only
                        exact HUInv_self s pageId dels false
                    | leaf _ =>
                      dsimp only
                      exact HUInv_self s pageId dels false
                  | none =>
                    dsimp only
                    exact HUInv_self s pageId dels false
                · rw [if_neg hR]
                  dsimp only
                  exact HUInv_self s pageId dels false
            · rw [if_neg hL]
              dsimp only
              by_cases hR : idx < parent.size
              · rw [if_pos hR]
                dsimp only
                cases hsr : s.pages (childAt parent (idx + 1)) with
                | some srpg =>
                  cases srpg with
                  | internal sr =>
                    dsimp only
                    by_cases hgr : sr.size > getMinSize s.internalMax
                    · rw [if_pos hgr]
                      dsimp only
                      refine HUInv_borrow s pageId (childAt parent (idx + 1)) parentId dels
                        _ _ _ ?_ ?_
                      · exact fun _ _ lp hq => Page.noConfusion hq
                      · exact fun _ lp hq => Page.noConfusion hq
                    · rw [if_neg hgr]
                      dsimp only
                      refine HUInv_step_merge s pageId pageId parentId
                        (dels ++ [childAt parent (idx + 1)])
                        (Page.internal (internalMergeInto s.internalMax curN sr parent idx))
                        (removeAt parent idx) recur hrec ?_
                      exact fun _ _ lp hq => Page.noConfusion hq
                  | leaf _ =>
                    dsimp only
                    exact HUInv_self s pageId dels false
                | none =>
                  dsimp only
                  exact HUInv_self s pageId dels false
              · rw [if_neg hR]
                dsimp only
                exact HUInv_self s pageId dels false

theorem handleUnderflow_inv (anc : List Int) :
    ∀ (s : TreeState K V) (pageId : Int) (dels : List Int),
      HUInv s pageId (handleUnderflow s anc pageId dels) := by
  induction anc with
  | nil =>
    intro s pageId dels
    unfold handleUnderflow
    by_cases hr : pageId = s.root
    · rw [if_pos hr]
      exact handleUnderflowRoot_inv s pageId dels
    · rw [if_neg hr]
      exact HUInv_self s pageId dels false
  | cons parentId rest ih =>
    intro s pageId dels
    unfold handleUnderflow
    by_cases hr : pageId = s.root
    · rw [if_pos hr]
      exact handleUnderflowRoot_inv s pageId dels
    · rw [if_neg hr]
      exact handleUnderflowCore_inv _ (fun s2 p2 d2 => ih s2 p2 d2) parentId s pageId dels

theorem foldl_delPage (dels : List Int) :
    ∀ s : TreeState K V,
      (dels.foldl delPage s).leafMax = s.leafMax ∧
      (dels.foldl delPage s).internalMax = s.internalMax ∧
      (dels.foldl delPage s).nextPageId = s.nextPageId ∧
      (dels.foldl delPage s).root = s.root ∧
      (LeafSizesLE s → LeafSizesLE (dels.foldl delPage s)) := by
  induction dels with
  | nil => intro s; exact ⟨rfl, rfl, rfl, rfl, fun h => h⟩
  | cons d t ih =>
    intro s
    obtain ⟨a1, a2, a3, a4, a5⟩ := ih (delPage s d)
    refine ⟨a1, a2, a3, a4, ?_⟩
    intro h
    refine a5 ?_
    intro p lp hp
    rw [delPage_pages] at hp
    by_cases hpe : p = d
    · rw [if_pos hpe] at hp; exact absurd hp (by simp)
    · rw [if_neg hpe] at hp; exact h p lp hp

theorem leafInsert_initLeaf_size (k : K) (v : V) :
    (leafInsert (initLeaf : LeafPage K V) k v).size = 1 := by
  unfold leafInsert
  dsimp only
  rw [if_neg (by intro hc; exact absurd hc.1 (by simp [initLeaf]))]
  rfl

theorem startNewTree_inv (s : TreeState K V) (k : K) (v : V)
    (hL : 1 ≤ s.leafMax) (hls : LeafSizesLE s) :
    LeafSizesLE (startNewTree s k v) ∧
    (startNewTree s k v).leafMax = s.leafMax ∧
    (startNewTree s k v).internalMax = s.internalMax := by
  unfold startNewTree
  dsimp only
  by_cases h0 : (newPage s).1 = 0
  · rw [if_pos h0]
    refine ⟨?_, rfl, rfl⟩
    intro p lp hp
    rw [setPage_pages] at hp
    by_cases hpe : p = (newPage (newPage s).2).1
    · rw [if_pos hpe] at hp
      injection hp with hp
      injection hp with hp
      have : lp.size = 1 := by rw [← hp]; exact leafInsert_initLeaf_size k v
      show lp.size ≤ s.leafMax
      omega
    · rw [if_neg hpe, newPage_pages] at hp
      by_cases hpe2 : p = (newPage s).2.nextPageId
      · rw [if_pos hpe2] at hp
        exact absurd hp (by simp)
      · rw [if_neg hpe2, newPage_pages] at hp
        by_cases hpe3 : p = s.nextPageId
        · rw [if_pos hpe3] at hp
          exact absurd hp (by simp)
        · rw [if_neg hpe3] at hp
          exact hls p lp hp
  · rw [if_neg h0]
    refine ⟨?_, rfl, rfl⟩
    intro p lp hp
    rw [setPage_pages] at hp
    by_cases hpe : p = (newPage s).1
    · rw [if_pos hpe] at hp
      injection hp with hp
      injection hp with hp
      have : lp.size = 1 := by rw [← hp]; exact leafInsert_initLeaf_size k v
      show lp.size ≤ s.leafMax
      omega
    · rw [if_neg hpe, newPage_pages] at hp
      have hpe3 : ¬ p = s.nextPageId := hpe
      rw [if_neg hpe3] at hp
      exact hls p lp hp

theorem bPlusInsert_inv (fuel : Nat) (s : TreeState K V) (k : K) (v : V) (b : Bool)
    (s2 : TreeState K V) (hok : bPlusInsert fuel s k v = some (b, s2))
    (hL : 2 ≤ s.leafMax) (hls : LeafSizesLE s) :
    LeafSizesLE s2 ∧ s2.leafMax = s.leafMax ∧ s2.internalMax = s.internalMax := by
  unfold bPlusInsert at hok
  by_cases hroot : s.root = INVALID_PAGE_ID
  · rw [if_pos hroot] at hok
    injection hok with hok
    injection hok with hok1 hok2
    rw [← hok2]
    exact startNewTree_inv s k v (by omega) hls
  · rw [if_neg hroot] at hok
    cases hp : getLeafPage fuel s k with
    | none => rw [hp] at hok; simp at hok
    | some pr =>
      obtain ⟨revAnc, leafId⟩ := pr
      rw [hp] at hok
      dsimp only at hok
      cases hpg : s.pages leafId with
      | none => rw [hpg] at hok; simp at hok
      | some pg =>
        cases pg with
        | internal n => rw [hpg] at hok; simp at hok
        | leaf lp =>
          rw [hpg] at hok
          dsimp only at hok
          by_cases hdup : (leafGetValue lp k).isSome = true
          · rw [if_pos hdup] at hok
            injection hok with hok
            injection hok with hok1 hok2
            rw [← hok2]
            exact ⟨hls, rfl, rfl⟩
          · rw [if_neg hdup] at hok
            by_cases hfull : ¬ isFull lp.size s.leafMax = true
            · rw [if_pos hfull] at hok
              injection hok with hok
              injection hok with hok1 hok2
              rw [← hok2]
              have hsz : lp.size < s.leafMax := by
                have := hfull
                simp [isFull] at this
                exact this
              refine ⟨?_, rfl, rfl⟩
              refine leafSizesLE_setPage _ hls ?_
              intro lq hq
              injection hq with hq
              rw [← hq]
              have := leafInsert_size_le lp k v
              show (leafInsert lp k v).size ≤ s.leafMax
              omega
            · rw [if_neg hfull] at hok
              injection hok with hok
              injection hok with hok1 hok2
              have hfull2 : s.leafMax ≤ lp.size := by
                have := not_not.mp hfull
                simpa [isFull] using this
              have hlpsz : lp.size = s.leafMax := le_antisymm (hls leafId lp hpg) hfull2
              have hl1 : (leafSplit lp (initLeaf : LeafPage K V)).1.size = lp.size / 2 := rfl
              have hl2 : (leafSplit lp (initLeaf : LeafPage K V)).2.1.size
                  = lp.size - lp.size / 2 := rfl
              set upKey := (leafSplit lp (initLeaf : LeafPage K V)).2.2 with hupk
              set nid := (newPage s).1 with hnid
              set prA : LeafPage K V × LeafPage K V :=
                (if k < upKey then
                  (leafInsert { (leafSplit lp (initLeaf : LeafPage K V)).1 with next := nid }
                    k v,
                   { (leafSplit lp (initLeaf : LeafPage K V)).2.1 with
                     next := (leafSplit lp (initLeaf : LeafPage K V)).1.next })
                else
                  ({ (leafSplit lp (initLeaf : LeafPage K V)).1 with next := nid },
                   leafInsert { (leafSplit lp (initLeaf : LeafPage K V)).2.1 with
                     next := (leafSplit lp (initLeaf : LeafPage K V)).1.next } k v))
                with hprA
              have hszA : prA.1.size ≤ s.leafMax ∧ prA.2.size ≤ s.leafMax := by
                rw [hprA]
                by_cases hklt : k < upKey
                · rw [if_pos hklt]
                  constructor
                  · have h1 := leafInsert_size_le
                      { (leafSplit lp (initLeaf : LeafPage K V)).1 with next := nid } k v
                    show (leafInsert _ k v).size ≤ s.leafMax
                    have : ({ (leafSplit lp (initLeaf : LeafPage K V)).1 with
                        next := nid } : LeafPage K V).size = lp.size / 2 := rfl
                    omega
                  · show lp.size - lp.size / 2 ≤ s.leafMax
                    omega
                · rw [if_neg hklt]
                  constructor
                  · show lp.size / 2 ≤ s.leafMax
                    omega
                  · have h1 := leafInsert_size_le
                      { (leafSplit lp (initLeaf : LeafPage K V)).2.1 with
                        next := (leafSplit lp (initLeaf : LeafPage K V)).1.next } k v
                    show (leafInsert _ k v).size ≤ s.leafMax
                    have : ({ (leafSplit lp (initLeaf : LeafPage K V)).2.1 with
                        next := (leafSplit lp (initLeaf : LeafPage K V)).1.next } :
                        LeafPage K V).size = lp.size - lp.size / 2 := rfl
                    omega
              set sMid := setPage (setPage (newPage s).2 leafId (Page.leaf prA.1)) nid
                (Page.leaf prA.2) with hsMid
              have hlsMid : LeafSizesLE sMid := by
                intro p lq hq
                rw [hsMid, setPage_pages] at hq
                by_cases hpe : p = nid
                · rw [if_pos hpe] at hq
                  injection hq with hq
                  injection hq with hq
                  rw [← hq]
                  exact hszA.2
                · rw [if_neg hpe, setPage_pages] at hq
                  by_cases hpe2 : p = leafId
                  · rw [if_pos hpe2] at hq
                    injection hq with hq
                    injection hq with hq
                    rw [← hq]
                    exact hszA.1
                  · rw [if_neg hpe2, newPage_pages] at hq
                    have hpe3 : ¬ p = s.nextPageId := hpe
                    rw [if_neg hpe3] at hq
                    exact hls p lq hq
              obtain ⟨i1, i2, i3, i4⟩ := insertPropagate_inv revAnc sMid leafId upKey nid
              rw [← hok2]
              exact ⟨i4 hlsMid, i1, i2⟩

theorem bPlusRemove_inv (fuel : Nat) (s : TreeState K V) (k : K)
    (hls : LeafSizesLE s) :
    LeafSizesLE (bPlusRemove fuel s k).1 ∧
    (bPlusRemove fuel s k).1.leafMax = s.leafMax ∧
    (bPlusRemove fuel s k).1.internalMax = s.internalMax := by
  unfold bPlusRemove
  by_cases hroot : s.root = INVALID_PAGE_ID
  · rw [if_pos hroot]
    exact ⟨hls, rfl, rfl⟩
  · rw [if_neg hroot]
    cases hp : getLeafPage fuel s k with
    | none => exact ⟨hls, rfl, rfl⟩
    | some pr =>
      obtain ⟨revAnc, leafId⟩ := pr
      dsimp only
      cases hpg : s.pages leafId with
      | none => exact ⟨hls, rfl, rfl⟩
      | some pg =>
        cases pg with
        | internal n => exact ⟨hls, rfl, rfl⟩
        | leaf lp =>
          dsimp only
          set revAncEff := if leafIsSafeRemove s leafId lp = true then ([] : List Int)
            else revAnc with hrae
          set lp1 := leafRemove lp k with hlp1
          set s1 := setPage s leafId (Page.leaf lp1) with hs1
          have hls1 : LeafSizesLE s1 := by
            refine leafSizesLE_setPage _ hls ?_
            intro lq hq
            injection hq with hq
            rw [← hq]
            have h1 := leafRemove_size_le lp k
            have h2 := hls leafId lp hpg
            show (leafRemove lp k).size ≤ s.leafMax
            omega
          by_cases hund : lp1.size < lp.size ∧ isUnderflow lp1.size s.leafMax = true
          · rw [if_pos hund]
            have hinv := handleUnderflow_inv revAncEff s1 leafId []
            cases hHU : handleUnderflow s1 revAncEff leafId [] with
            | mk s2 rest2 =>
              obtain ⟨delSet2, ok2⟩ := rest2
              rw [hHU] at hinv
              obtain ⟨j1, j2, j3, j4⟩ := hinv
              have hpre : ∀ lq, s1.pages leafId = some (Page.leaf lq) →
                  lq.size < getMinSize s1.leafMax := by
                intro lq hq
                rw [hs1, setPage_pages, if_pos rfl] at hq
                injection hq with hq
                injection hq with hq
                rw [← hq]
                have := hund.2
                simpa [isUnderflow] using this
              have hls2 : LeafSizesLE s2 := j4 hpre hls1
              cases ok2 with
              | true =>
                dsimp only
                obtain ⟨f1, f2, f3, f4, f5⟩ := foldl_delPage delSet2 s2
                refine ⟨f5 hls2, ?_, ?_⟩
                · rw [f1, j1]
                  rfl
                · rw [f2, j2]
                  rfl
              | false =>
                dsimp only
                refine ⟨hls2, ?_, ?_⟩
                · rw [j1]; rfl
                · rw [j2]; rfl
          · rw [if_neg hund]
            exact ⟨hls1, rfl, rfl⟩

theorem reachable_inv {L I : Nat} {s : TreeState K V} (hL : 2 ≤ L) (h : Reachable L I s) :
    LeafSizesLE s ∧ s.leafMax = L ∧ s.internalMax = I := by
  induction h with
  | init =>
    refine ⟨?_, rfl, rfl⟩
    intro id lp hp
    exact absurd hp (by simp [newTreeState])
  | insert fuel k v b hs hok ih =>
    obtain ⟨a1, a3, a4⟩ := ih
    obtain ⟨b1, b3, b4⟩ := bPlusInsert_inv fuel _ k v b _ hok (by omega) a1
    exact ⟨b1, by omega, by omega⟩
  | remove fuel k hs ih =>
    obtain ⟨a1, a3, a4⟩ := ih
    obtain ⟨b1, b3, b4⟩ := bPlusRemove_inv fuel _ k a1
    exact ⟨b1, by omega, by omega⟩

/-- C9: LeafNode::Insert performs no capacity check — on an absent key it
always grows the node, so calling it on a leaf already holding
max_leaf_size entries yields a size past the capacity (the pair is written
at keys[max_leaf_size], one slot past the end of the array).  The tree
engine establishes the precondition size < max_leaf_size before every
call: the not-full guard in BPlusTree::Insert reads the size field of the
very page it then inserts into and means exactly size < max_leaf_size,
and every tree state reachable through the public Insert/Remove keeps
every stored leaf within capacity, so the out-of-bounds write is
unreachable through the public Insert. -/
theorem c9_unchecked_leaf_insert_is_guarded {L I : Nat} (hL : 2 ≤ L)
    (p : LeafPage K V) (k : K) (v : V) (habs : leafGetValue p k = none)
    {s : TreeState K V} (hs : Reachable L I s) :
    (leafInsert p k v).size = p.size + 1 ∧
    (p.size = L → L < (leafInsert p k v).size) ∧
    (∀ n, isFull n L = false → n < L) ∧
    (∀ id lp, s.pages id = some (Page.leaf lp) → lp.size ≤ L) := by
  obtain ⟨hls, hLmax, hImax⟩ := reachable_inv hL hs
  refine ⟨leafInsert_size_of_absent p k v habs, ?_, ?_, ?_⟩
  · intro hsz
    have hg := leafInsert_size_of_absent p k v habs
    omega
  · intro n hn
    simp only [isFull, ge_iff_le, decide_eq_false_iff_not, not_le] at hn
    exact hn
  · intro id lp hp
    have hle := hls id lp hp
    rw [hLmax] at hle
    exact hle

/-- C9 at concrete inputs: key 5 is absent from the size-3 leaf wLeafSrc,
and the conclusion holds for the fresh tree with capacities 4/4. -/
theorem c9_unchecked_leaf_insert_is_guarded_witness :
    ((2 : Nat) ≤ 4 ∧ leafGetValue wLeafSrc (5 : Int) = none) ∧
    ((leafInsert wLeafSrc (5 : Int) (50 : Int)).size = wLeafSrc.size + 1 ∧
     (wLeafSrc.size = 4 → 4 < (leafInsert wLeafSrc (5 : Int) (50 : Int)).size) ∧
     (∀ n, isFull n 4 = false → n < 4) ∧
     (∀ id lp, (newTreeState 4 4 : TreeState Int Int).pages id = some (Page.leaf lp) →
       lp.size ≤ 4)) :=
  ⟨⟨by decide, by decide⟩,
   c9_unchecked_leaf_insert_is_guarded (by decide) wLeafSrc 5 50 (by decide) Reachable.init⟩

set_option maxHeartbeats 16000000 in
/-- C1: refuted on a concrete reachable state.  cTree is reachable from a
fresh L = I = 4 tree through completed public Insert/Remove calls only;
its root is a full (size-4) internal page left at rest by the internal
merge in Handle_Underflow.  insert(2, 222) returns true: it splits the
full leftmost leaf and propagates the separator into the root, and
BPlusTree::Insert calls InternalNode::Insert on the full root before its
fullness check, so the key memmove writes key slot 4 — the bytes of
children[0] — and the ensuing split keeps the clobbered slot (now 110,
the old largest separator) as the left half's first child.  With no
subsequent operation on key 2, Get_Value(2) descends through the
clobbered slot towards nonexistent page 110 and fails instead of
returning Some 222. -/
theorem c1_insert_get_violated :
    Reachable 4 4 cTree ∧
    bPlusInsert 20 cTree 2 222 = some (true, cTree2) ∧
    bPlusGetValue 20 cTree2 2 = none := by
  have h0 : Reachable 4 4 cT0 := Reachable.init
  have e1 : bPlusInsert 20 cT0 10 100 = some (true, cT1) := rfl
  have h1 : Reachable 4 4 cT1 := Reachable.insert 20 10 100 true h0 e1
  have e2 : bPlusInsert 20 cT1 20 200 = some (true, cT2) := rfl
  have h2 : Reachable 4 4 cT2 := Reachable.insert 20 20 200 true h1 e2
  have e3 : bPlusInsert 20 cT2 30 300 = some (true, cT3) := rfl
  have h3 : Reachable 4 4 cT3 := Reachable.insert 20 30 300 true h2 e3
  have e4 : bPlusInsert 20 cT3 40 400 = some (true, cT4) := rfl
  have h4 : Reachable 4 4 cT4 := Reachable.insert 20 40 400 true h3 e4
  have e5 : bPlusInsert 20 cT4 50 500 = some (true, cT5) := rfl
  have h5 : Reachable 4 4 cT5 := Reachable.insert 20 50 500 true h4 e5
  have e6 : bPlusInsert 20 cT5 60 600 = some (true, cT6) := rfl
  have h6 : Reachable 4 4 cT6 := Reachable.insert 20 60 600 true h5 e6
  have e7 : bPlusInsert 20 cT6 70 700 = some (true, cT7) := rfl
  have h7 : Reachable 4 4 cT7 := Reachable.insert 20 70 700 true h6 e7
  have e8 : bPlusInsert 20 cT7 80 800 = some (true, cT8) := rfl
  have h8 : Reachable 4 4 cT8 := Reachable.insert 20 80 800 true h7 e8
  have e9 : bPlusInsert 20 cT8 90 900 = some (true, cT9) := rfl
  have h9 : Reachable 4 4 cT9 := Reachable.insert 20 90 900 true h8 e9
  have e10 : bPlusInsert 20 cT9 100 1000 = some (true, cT10) := rfl
  have h10 : Reachable 4 4 cT10 := Reachable.insert 20 100 1000 true h9 e10
  have e11 : bPlusInsert 20 cT10 110 1100 = some (true, cT11) := rfl
  have h11 : Reachable 4 4 cT11 := Reachable.insert 20 110 1100 true h10 e11
  have e12 : bPlusInsert 20 cT11 120 1200 = some (true, cT12) := rfl
  have h12 : Reachable 4 4 cT12 := Reachable.insert 20 120 1200 true h11 e12
  have e13 : bPlusInsert 20 cT12 130 1300 = some (true, cT13) := rfl
  have h13 : Reachable 4 4 cT13 := Reachable.insert 20 130 1300 true h12 e13
  have h14 : Reachable 4 4 cT14 := Reachable.remove 20 10 h13
  have e15 : bPlusInsert 20 cT14 1 10 = some (true, cTree) := rfl
  have h15 : Reachable 4 4 cTree := Reachable.insert 20 1 10 true h14 e15
  exact ⟨h15, rfl, rfl⟩

set_option maxHeartbeats 16000000 in
/-- C10: refuted on a concrete reachable state.  dTree is reachable from a
fresh L = I = 4 tree through completed public Insert/Remove calls only
(the cTree trace with every key lowered by 110, so the full root's
largest separator is the key 0).  The last insert splits a leaf under the
full root; InternalNode::Insert writes key slot 4 — the bytes of
children[0] — storing the key 0 there, that is, page id 0.  In the
resulting tree the root's first child is the internal page 3, whose live
child slot 0 holds page id 0: the descent for any key below its first
separator (InternalNode::Lookup) proceeds to the reserved meta page 0 and
reads it as a tree node, so tree node references do alias the meta page
on reachable states. -/
theorem c10_meta_page_aliased :
    Reachable 4 4 dTree ∧
    dTree.pages dTree.root = some (Page.internal dRoot) ∧
    childAt dRoot 0 = 3 ∧
    dTree.pages 3 = some (Page.internal dNode) ∧
    1 ≤ dNode.size ∧
    dNode.children 0 = 0 ∧
    internalLookup dNode (-200 : Int) = 0 := by
  have h0 : Reachable 4 4 dT0 := Reachable.init
  have e1 : bPlusInsert 20 dT0 (-100) (-1000) = some (true, dT1) := rfl
  have h1 : Reachable 4 4 dT1 := Reachable.insert 20 (-100) (-1000) true h0 e1
  have e2 : bPlusInsert 20 dT1 (-90) (-900) = some (true, dT2) := rfl
  have h2 : Reachable 4 4 dT2 := Reachable.insert 20 (-90) (-900) true h1 e2
  have e3 : bPlusInsert 20 dT2 (-80) (-800) = some (true, dT3) := rfl
  have h3 : Reachable 4 4 dT3 := Reachable.insert 20 (-80) (-800) true h2 e3
  have e4 : bPlusInsert 20 dT3 (-70) (-700) = some (true, dT4) := rfl
  have h4 : Reachable 4 4 dT4 := Reachable.insert 20 (-70) (-700) true h3 e4
  have e5 : bPlusInsert 20 dT4 (-60) (-600) = some (true, dT5) := rfl
  have h5 : Reachable 4 4 dT5 := Reachable.insert 20 (-60) (-600) true h4 e5
  have e6 : bPlusInsert 20 dT5 (-50) (-500) = some (true, dT6) := rfl
  have h6 : Reachable 4 4 dT6 := Reachable.insert 20 (-50) (-500) true h5 e6
  have e7 : bPlusInsert 20 dT6 (-40) (-400) = some (true, dT7) := rfl
  have h7 : Reachable 4 4 dT7 := Reachable.insert 20 (-40) (-400) true h6 e7
  have e8 : bPlusInsert 20 dT7 (-30) (-300) = some (true, dT8) := rfl
  have h8 : Reachable 4 4 dT8 := Reachable.insert 20 (-30) (-300) true h7 e8
  have e9 : bPlusInsert 20 dT8 (-20) (-200) = some (true, dT9) := rfl
  have h9 : Reachable 4 4 dT9 := Reachable.insert 20 (-20) (-200) true h8 e9
  have e10 : bPlusInsert 20 dT9 (-10) (-100) = some (true, dT10) := rfl
  have h10 : Reachable 4 4 dT10 := Reachable.insert 20 (-10) (-100) true h9 e10
  have e11 : bPlusInsert 20 dT10 0 0 = some (true, dT11) := rfl
  have h11 : Reachable 4 4 dT11 := Reachable.insert 20 0 0 true h10 e11
  have e12 : bPlusInsert 20 dT11 10 100 = some (true, dT12) := rfl
  have h12 : Reachable 4 4 dT12 := Reachable.insert 20 10 100 true h11 e12
  have e13 : bPlusInsert 20 dT12 20 200 = some (true, dT13) := rfl
  have h13 : Reachable 4 4 dT13 := Reachable.insert 20 20 200 true h12 e13
  have h14 : Reachable 4 4 dT14 := Reachable.remove 20 (-100) h13
  have e15 : bPlusInsert 20 dT14 (-109) (-1090) = some (true, dT15) := rfl
  have h15 : Reachable 4 4 dT15 := Reachable.insert 20 (-109) (-1090) true h14 e15
  have e16 : bPlusInsert 20 dT15 (-108) 7 = some (true, dTree) := rfl
  have h16 : Reachable 4 4 dTree := Reachable.insert 20 (-108) 7 true h15 e16
  exact ⟨h16, rfl, rfl, rfl, by decide, rfl, rfl⟩

end ClaimTheorems

end BPTree
